import Mathlib

/-!
Verification of the subnetCalc subnet calculator.

The development shallowly embeds the Go sources: `subnet/network.go`
(address arithmetic, the `Network` entity and its `Split`), `tui/tree.go`
(the `SubnetNode` tree with `Split`/`Join`/`collectLeaves`/`Hosts`),
`tui/render_cells.go` (`buildSpanCell`), `formatter` (JSON export and
host-count formatting) and the interactive model.  IP addresses are
modelled as their big-endian byte sequences, exactly the `[]byte` slices
the Go code manipulates; `big.Int` is modelled as `Int`.
-/

namespace SubnetCalc

/-- An IP address as its big-endian byte sequence (4 bytes for IPv4, 16 for
IPv6), mirroring the `[]byte` views (`AsSlice`) used throughout
`subnet/network.go`. -/
abbrev Addr := List Nat

/-- Every byte of the sequence is an actual byte (below 256). -/
def bytesOK (a : Addr) : Prop := ∀ b ∈ a, b < 256

instance : DecidablePred bytesOK := fun a =>
  inferInstanceAs (Decidable (∀ b ∈ a, b < 256))

/-- Numeric value of a big-endian byte sequence. -/
def addrVal : Addr → Nat
  | [] => 0
  | b :: rest => b * 256 ^ rest.length + addrVal rest

/-- Numeric value of a little-endian byte sequence (used to reason about the
carry loops, which run from the last byte to the first). -/
def addrValLE : List Nat → Nat
  | [] => 0
  | b :: rest => b + 256 * addrValLE rest

/-- Byte loop of `CalculateSubnetMask`: `count` bytes are produced while
`remaining` tracks the `remainingBits` variable of the Go loop. -/
def maskBytes : Nat → Nat → List Nat
  | 0, _ => []
  | count + 1, remaining =>
    if 8 ≤ remaining then 255 :: maskBytes count (remaining - 8)
    else if 0 < remaining then (255 <<< (8 - remaining)) % 256 :: maskBytes count 0
    else 0 :: maskBytes count 0

/-- `CalculateSubnetMask(maskBits, addrBits)` of `subnet/network.go`: a byte
mask of `addrBits/8` bytes with the first `maskBits` bits set. -/
def CalculateSubnetMask (maskBits addrBits : Nat) : Addr :=
  maskBytes (addrBits / 8) maskBits

/-- Models `netip.Prefix.Masked().Addr()`: the prefix's address ANDed
bytewise with the subnet mask of its bit length. -/
def maskedAddr (a : Addr) (bits : Nat) : Addr :=
  List.zipWith (fun x m => x &&& m) a (CalculateSubnetMask bits (8 * a.length))

/-- `CalculateBroadcastAddr(networkAddr, subnetMask)`: per byte
`networkAddr[i] | ^subnetMask[i]` (`^` is the 8-bit complement, i.e. XOR
with 255). -/
def CalculateBroadcastAddr (networkAddr subnetMask : Addr) : Addr :=
  List.zipWith (fun x m => x ||| (255 ^^^ m)) networkAddr subnetMask

/-- Carry loop of `AddToAddr` on the reversed (little-endian) byte list:
`sum & 0xFF` is kept, `sum >> 8` carries into the next byte, and a carry out
of the most significant byte is dropped, as in the Go loop.  (The Go loop
exits once the carry is zero; adding a zero carry to a well-formed byte
leaves it unchanged, so running to the end is equivalent.) -/
def addBytesLE : List Nat → Nat → List Nat
  | [], _ => []
  | b :: rest, carry => (b + carry) % 256 :: addBytesLE rest ((b + carry) / 256)

/-- `AddToAddr(addr, n)` of `subnet/network.go`: add `n` big-endian with
carry propagation. -/
def AddToAddr (a : Addr) (n : Nat) : Addr :=
  (addBytesLE a.reverse n).reverse

/-- Models `netip.Addr.Next()`: the address plus one.  On overflow this
wraps to zero where `netip` yields the invalid zero address; every use in
this development stays below the wrap. -/
def nextAddr (a : Addr) : Addr := AddToAddr a 1

/-- Borrow loop for subtracting one, little-endian. -/
def subOneBytesLE : List Nat → List Nat
  | [] => []
  | b :: rest => if b = 0 then 255 :: subOneBytesLE rest else (b - 1) :: rest

/-- Models `netip.Addr.Prev()`: the address minus one, wrapping on
underflow. -/
def prevAddr (a : Addr) : Addr := (subOneBytesLE a.reverse).reverse

/-- `CalculateMaxHosts(addrBits, maskBits)`: `2^(addrBits-maskBits) - 2` as
an unbounded integer, with the non-positive cases returned as 0. -/
def CalculateMaxHosts (addrBits maskBits : Int) : Int :=
  let hostBits := addrBits - maskBits
  if hostBits ≤ 0 then 0
  else
    let maxHosts := (2 : Int) ^ hostBits.toNat - 2
    if maxHosts < 0 then 0 else maxHosts

/-- The `Network` struct of `subnet/network.go`: the canonical prefix
(`cidrAddr`/`cidrBits`), the derived addresses, the prefix length, the
unbounded host count and the child subnets. -/
inductive Network where
  | mk (cidrAddr : Addr) (cidrBits : Nat)
      (networkAddr broadcastAddr firstHostIP lastHostIP subnetMask : Addr)
      (maskBits : Nat) (maxHosts : Int) (subnets : List Network)

def Network.cidrAddr : Network → Addr
  | .mk a _ _ _ _ _ _ _ _ _ => a

def Network.cidrBits : Network → Nat
  | .mk _ b _ _ _ _ _ _ _ _ => b

def Network.networkAddr : Network → Addr
  | .mk _ _ n _ _ _ _ _ _ _ => n

def Network.broadcastAddr : Network → Addr
  | .mk _ _ _ b _ _ _ _ _ _ => b

def Network.firstHostIP : Network → Addr
  | .mk _ _ _ _ f _ _ _ _ _ => f

def Network.lastHostIP : Network → Addr
  | .mk _ _ _ _ _ l _ _ _ _ => l

def Network.subnetMask : Network → Addr
  | .mk _ _ _ _ _ _ m _ _ _ => m

def Network.maskBits : Network → Nat
  | .mk _ _ _ _ _ _ _ mb _ _ => mb

def Network.maxHosts : Network → Int
  | .mk _ _ _ _ _ _ _ _ h _ => h

def Network.subnets : Network → List Network
  | .mk _ _ _ _ _ _ _ _ _ s => s

/-- Replace the `Subnets` field, as the successful branch of `Split` does. -/
def Network.withSubnets : Network → List Network → Network
  | .mk a b n br f l m mb h _, s => .mk a b n br f l m mb h s

/-- `NewNetworkFromPrefix`: normalize the prefix to its masked network
address and populate every derived field. -/
def NewNetworkFromPrefix (a : Addr) (bits : Nat) : Network :=
  let networkAddr := maskedAddr a bits
  let addrBits := 8 * a.length
  let subnetMask := CalculateSubnetMask bits addrBits
  let broadcastAddr := CalculateBroadcastAddr networkAddr subnetMask
  .mk networkAddr bits networkAddr broadcastAddr (nextAddr networkAddr)
    (prevAddr broadcastAddr) subnetMask bits
    (CalculateMaxHosts (addrBits : Int) (bits : Int)) []

/-- Loop of `GenerateSubnets`: build `count` child networks of prefix length
`targetBits`, each starting one past the previous child's broadcast
address. -/
def generateSubnetsLoop (targetBits : Nat) : Nat → Addr → List Network
  | 0, _ => []
  | count + 1, currentAddr =>
    let s := NewNetworkFromPrefix currentAddr targetBits
    s :: generateSubnetsLoop targetBits count (AddToAddr s.broadcastAddr 1)

/-- `GenerateSubnets(prefix, targetBits)`: all `2^(targetBits - bits)`
subnets of size `targetBits` inside the prefix, in ascending order. -/
def GenerateSubnets (prefixAddr : Addr) (prefixBits targetBits : Nat) : List Network :=
  generateSubnetsLoop targetBits (1 <<< (targetBits - prefixBits)) prefixAddr

/-- `MaxGeneratedSubnets`, the safety cap of `subnet/network.go`. -/
def MaxGeneratedSubnets : Int := 1000000

/-- `(*Network).Split(targetBits)`: the pair is the (possibly updated)
receiver and the error, mirroring the Go method that mutates its receiver
only on success.  `big.Int.Lsh(1, diff)` is `2 ^ diff`, and `IsInt64` of
that positive value is the comparison with `2^63 - 1`. -/
def Network.split (n : Network) (targetBits : Int) : Network × Option String :=
  if targetBits ≤ (n.maskBits : Int) then
    (n, some ("target prefix /" ++ toString targetBits ++
      " must be larger than network prefix /" ++ toString (n.maskBits : Int)))
  else
    let maxBits : Int := 8 * n.cidrAddr.length
    if targetBits > maxBits then
      (n, some ("target prefix /" ++ toString targetBits ++
        " exceeds maximum /" ++ toString maxBits ++ " for this address family"))
    else
      let diff := targetBits - (n.maskBits : Int)
      let numSubnets : Int := (2 : Int) ^ diff.toNat
      if ¬ numSubnets ≤ (2 : Int) ^ 63 - 1 then
        (n, some "requested split would generate too many subnets")
      else if numSubnets > MaxGeneratedSubnets then
        (n, some ("requested split would generate " ++ toString numSubnets ++
          " subnets (limit " ++ toString MaxGeneratedSubnets ++ ")"))
      else
        (n.withSubnets (GenerateSubnets n.cidrAddr n.maskBits targetBits.toNat), none)

/-! ### The subnet tree of `tui/tree.go` -/

/-- `MaxSplitDepth` of `tui/model.go`: interactive splitting stops at /30. -/
def MaxSplitDepth : Nat := 30

/-- The `SubnetNode` struct of `tui/tree.go`: the embedded `Network`, the
child nodes and the `IsSplit` flag.  The Go `Parent` back-pointer is not a
field: it is recoverable from a node's path, and tree edits are modelled as
path-addressed updates on the owning tree. -/
inductive SNode where
  | mk (network : Network) (children : List SNode) (isSplit : Bool)

def SNode.network : SNode → Network
  | .mk n _ _ => n

def SNode.children : SNode → List SNode
  | .mk _ c _ => c

def SNode.isSplit : SNode → Bool
  | .mk _ _ s => s

/-- `createSubnetNode(prefix, parent)`: a fresh unsplit node wrapping
`NewNetworkFromPrefix`. -/
def createSubnetNode (a : Addr) (bits : Nat) : SNode :=
  .mk (NewNetworkFromPrefix a bits) [] false

/-- `(*SubnetNode).Split` of `tui/tree.go`: the updated node paired with the
Bool the Go method returns.  Child 1 keeps the (masked) network address at
`bits+1`; child 2 starts one past child 1's broadcast address. -/
def SNode.split1 (n : SNode) : SNode × Bool :=
  if n.isSplit || decide (MaxSplitDepth ≤ n.network.cidrBits) then (n, false)
  else
    let newBits := n.network.cidrBits + 1
    let networkAddr := maskedAddr n.network.cidrAddr n.network.cidrBits
    let child1 := createSubnetNode networkAddr newBits
    let child2Addr := nextAddr child1.network.broadcastAddr
    let child2 := createSubnetNode child2Addr newBits
    (.mk n.network (n.children ++ [child1, child2]) true, true)

/-- `(*SubnetNode).Join`: no-op returning false when the node is not split;
otherwise the children are discarded (in Go they are first recursively
joined, an effect that is unobservable once they are dropped) and `isSplit`
is cleared. -/
def SNode.join1 (n : SNode) : SNode × Bool :=
  if !n.isSplit then (n, false)
  else (.mk n.network [] false, true)

mutual

/-- `collectLeaves` of `tui/tree.go`: depth-first left-to-right leaf list
(the Go version appends through a slice pointer while iterating
`Children`). -/
def collectLeaves : SNode → List SNode
  | .mk net ch sp => if sp then collectLeavesChildren ch else [.mk net ch sp]

/-- The `for _, child := range node.Children` loop of `collectLeaves`. -/
def collectLeavesChildren : List SNode → List SNode
  | [] => []
  | c :: cs => collectLeaves c ++ collectLeavesChildren cs

end

mutual

/-- Paths (child-index lists) of the leaves of a tree, in the same
left-to-right order in which `collectLeaves` lists the leaves.  This is the
pure-embedding stand-in for the node pointers held by the `rows` cache. -/
def leafPaths : SNode → List (List Nat)
  | .mk _ ch sp => if sp then leafPathsChildren 0 ch else [[]]

/-- Children part of `leafPaths`, tagging each child with its index. -/
def leafPathsChildren : Nat → List SNode → List (List Nat)
  | _, [] => []
  | i, c :: cs => (leafPaths c).map (fun p => i :: p) ++ leafPathsChildren (i + 1) cs

end

mutual

/-- Fetch the node at a child-index path, if the path exists. -/
def getAt : SNode → List Nat → Option SNode
  | n, [] => some n
  | .mk _ ch _, i :: rest => getAtChildren ch i rest

/-- Index into the child list for `getAt`. -/
def getAtChildren : List SNode → Nat → List Nat → Option SNode
  | [], _, _ => none
  | c :: _, 0, rest => getAt c rest
  | _ :: cs, i + 1, rest => getAtChildren cs i rest

end

mutual

/-- Apply `f` to the node at a child-index path; an out-of-range path leaves
the tree unchanged.  This models calling a mutating method on an interior
node reached through the `rows` slice or a `Parent` pointer. -/
def modifyAt : SNode → List Nat → (SNode → SNode) → SNode
  | n, [], f => f n
  | .mk net ch sp, i :: rest, f => .mk net (modifyAtChildren ch i rest f) sp

/-- Child-list part of `modifyAt`. -/
def modifyAtChildren : List SNode → Nat → List Nat → (SNode → SNode) → List SNode
  | [], _, _, _ => []
  | c :: cs, 0, rest, f => modifyAt c rest f :: cs
  | c :: cs, i + 1, rest, f => c :: modifyAtChildren cs i rest f

end

/-- A single structural edit of the tree: `Split()` or `Join()` invoked on
the node at the given path. -/
inductive TreeOp where
  | splitOp (path : List Nat)
  | joinOp (path : List Nat)

/-- Apply one `Split`/`Join` call. -/
def applyTreeOp (root : SNode) : TreeOp → SNode
  | .splitOp p => modifyAt root p (fun nd => nd.split1.1)
  | .joinOp p => modifyAt root p (fun nd => nd.join1.1)

/-- Apply a finite sequence of `Split`/`Join` calls. -/
def applyTreeOps (root : SNode) (ops : List TreeOp) : SNode :=
  ops.foldl applyTreeOp root

/-- The stored `Network` of a tree node is one that `NewNetworkFromPrefix`
produced from a genuine 4- or 16-byte prefix (the only way `tui/tree.go`
builds nodes). -/
def netWF (net : Network) : Prop :=
  ∃ a bits, bytesOK a ∧ (a.length = 4 ∨ a.length = 16) ∧ bits ≤ 8 * a.length ∧
    net = NewNetworkFromPrefix a bits

/-- The network of the lower-half child `Split` creates: the parent's
(masked) network address at one more prefix bit. -/
def splitChild1 (net : Network) : Network :=
  NewNetworkFromPrefix (maskedAddr net.cidrAddr net.cidrBits) (net.cidrBits + 1)

/-- The network of the upper-half child `Split` creates: one past the lower
half's broadcast address, at one more prefix bit. -/
def splitChild2 (net : Network) : Network :=
  NewNetworkFromPrefix (nextAddr (splitChild1 net).broadcastAddr) (net.cidrBits + 1)

/-- Well-formedness of a subnet tree: an unsplit node has no children, and a
split node carries exactly the two children `Split` creates from its own
network (lower half first). -/
inductive TreeWF : SNode → Prop where
  | leaf {net : Network} : netWF net → TreeWF (.mk net [] false)
  | node {net : Network} {l r : SNode} : netWF net →
      net.cidrBits < 8 * net.cidrAddr.length →
      l.network = splitChild1 net →
      r.network = splitChild2 net →
      TreeWF l → TreeWF r → TreeWF (.mk net [l, r] true)

/-- The numeric address ranges of the leaves, in `collectLeaves` order. -/
def leafRangesOf (root : SNode) : List (Nat × Nat) :=
  (collectLeaves root).map fun nd =>
    (addrVal nd.network.networkAddr, addrVal nd.network.broadcastAddr)

/-- `ranges` partitions the interval `[lo, hi]`: non-empty, each range is an
interval, consecutive ranges are adjacent (hence non-overlapping and in
ascending order), the first starts at `lo` and the last ends at `hi`. -/
def IsPartitionOf (ranges : List (Nat × Nat)) (lo hi : Nat) : Prop :=
  ranges ≠ [] ∧
  (∀ p ∈ ranges, p.1 ≤ p.2) ∧
  List.Chain' (fun p q => q.1 = p.2 + 1) ranges ∧
  ranges.head?.map Prod.fst = some lo ∧
  ranges.getLast?.map Prod.snd = some hi

/-! ### Host-count accessor and JSON export of the TUI (`tui/tree.go`,
`formatter`) -/

/-- `^uint(0)`, the all-bits-set machine uint (64-bit platform). -/
def uintMax : Nat := 2 ^ 64 - 1

/-- `(*SubnetNode).Hosts` of `tui/tree.go`: the unbounded `MaxHosts` capped
at the maximum machine uint.  `big.Int.IsUint64` is the bounds check
`0 ≤ v < 2^64`. -/
def SNode.hosts (n : SNode) : Nat :=
  let v := n.network.maxHosts
  if ¬ (0 ≤ v ∧ v ≤ (2 : Int) ^ 64 - 1) then uintMax
  else if v.toNat > uintMax then uintMax
  else v.toNat

/-- A JSON value, the target of both export paths. -/
inductive JVal where
  | str (s : String)
  | num (n : Int)
  | arr (elems : List JVal)
  | obj (fields : List (String × JVal))

/-- Key list of a JSON object (empty for non-objects). -/
def jsonTopKeys : JVal → List String
  | .obj fields => fields.map Prod.fst
  | _ => []

/-- Dotted-quad rendering of `netip.Addr.String()` for 4-byte addresses.
Non-IPv4 lengths fall back to a colon-joined byte list; the RFC 5952
formatting the netip library applies to IPv6 is not reproduced, and no
theorem depends on it. -/
def addrString (a : Addr) : String :=
  if a.length = 4 then String.intercalate "." (a.map toString)
  else String.intercalate ":" (a.map toString)

/-- `netip.Prefix.String()`: address, slash, bit count. -/
def prefixString (a : Addr) (bits : Nat) : String :=
  addrString a ++ "/" ++ toString bits

/-- Bit length of a natural number, computed with an explicit fuel argument
so that it reduces by structural recursion (the fuel is an upper bound on
the bit count, never exhausted for `fuel ≥ n`). -/
def natBitLenAux : Nat → Nat → Nat
  | 0, _ => 0
  | fuel + 1, n => if n = 0 then 0 else natBitLenAux fuel (n / 2) + 1

/-- `big.Int.BitLen`: bit length of the absolute value. -/
def bigIntBitLen (v : Int) : Nat :=
  natBitLenAux v.natAbs v.natAbs

/-- `formatBigIntWithCommas` of `formatter`: decimal digits with a comma
before every index `i > 0` with `(len-i) % 3 == 0`. -/
def formatBigIntWithCommas (v : Int) : String :=
  let s := toString v
  if s.length ≤ 3 then s
  else ⟨(s.toList.enum.map fun ic =>
    if 0 < ic.1 ∧ (s.length - ic.1) % 3 = 0 then [',', ic.2] else [ic.2]).flatten⟩

/-- `FormatMaxHosts` of `formatter`: values at or beyond `2^64` render as
`">2^<bitlen-1>"`, smaller values as comma-grouped decimals.  (The Go `nil`
pointer guard has no counterpart for a value-typed `Int`.) -/
def FormatMaxHosts (v : Int) : String :=
  if (2 : Int) ^ 64 ≤ v then ">2^" ++ toString (bigIntBitLen v - 1)
  else formatBigIntWithCommas v

mutual

/-- `toJSONNetwork` of `formatter`: the object produced by the one-shot
`--json` path, keys exactly as in the `jsonNetwork` struct tags, with
`subnets` omitted when empty. -/
def toJSONNetwork : Network → JVal
  | .mk _ cb na ba fh lh sm mb mh subs =>
    .obj ([("cidr", .str (prefixString na cb)),
      ("firstIP", .str (addrString fh)),
      ("lastIP", .str (addrString lh)),
      ("networkAddr", .str (addrString na)),
      ("broadcastAddr", .str (addrString ba)),
      ("subnetMask", .str (addrString sm)),
      ("maskBits", .num (mb : Int)),
      ("maxHosts", .str (FormatMaxHosts mh))] ++
      (if subs.isEmpty then []
       else [("subnets", .arr (toJSONNetworkList subs))]))

/-- The `for i, s := range n.Subnets` loop of `toJSONNetwork`. -/
def toJSONNetworkList : List Network → List JVal
  | [] => []
  | n :: ns => toJSONNetwork n :: toJSONNetworkList ns

end

mutual

/-- `toExportNode` of `tui/tree.go` composed with its JSON marshalling: the
object produced by the TUI's export/copy action, keys exactly as in the
`ExportNode` struct tags, with `children` omitted when empty. -/
def toExportNode : SNode → JVal
  | .mk net ch sp =>
    .obj ([("cidr", .str (prefixString net.cidrAddr net.cidrBits)),
      ("firstIP", .str (addrString net.firstHostIP)),
      ("lastIP", .str (addrString net.lastHostIP)),
      ("broadcastAddr", .str (addrString net.broadcastAddr)),
      ("subnetMask", .str (addrString net.subnetMask)),
      ("hosts", .num (SNode.hosts (.mk net ch sp) : Int))] ++
      (if ch.isEmpty then []
       else [("children", .arr (toExportNodeList ch))]))

/-- The `for _, child := range n.Children` loop of `toExportNode`. -/
def toExportNodeList : List SNode → List JVal
  | [] => []
  | c :: cs => toExportNode c :: toExportNodeList cs

end

/-- Remove every comma of a string (used to state that the comma-grouped
rendering is the plain decimal rendering with grouping commas inserted). -/
def dropCommas (s : String) : String :=
  ⟨s.toList.filter (fun c => c != ',')⟩

/-- Boolean substring test (used to state what an error message does or does
not include). -/
def strContainsSubstr (s pat : String) : Bool :=
  (List.range (s.length + 1)).any fun i =>
    ((s.toList.drop i).take pat.length) == pat.toList

/-! ### The interactive model (spec-modelled undo/redo) -/

/-- Modelled from the spec: `maxHistorySize`, the undo-stack capacity of 50
entries (spec §4.4), named as in the repository's tests. -/
def maxHistorySize : Nat := 50

/-- Modelled from the spec: the undo/redo-capable interactive model.  The
undo/redo implementation of `tui/model.go` is missing from the sources (only
the `Undo`/`Redo` key declarations in `tui/keys.go` and the model tests
refer to it); the state follows spec §3 "Interactive model state" and §4.4:
the tree, a cursor clamped to the rows, bounded undo/redo stacks of tree
snapshots, and a transient status message.  The `rows` cache is always
`collectLeaves root` here, so it is represented as a derived value. -/
structure Model where
  root : SNode
  cursor : Nat
  undoStack : List SNode
  redoStack : List SNode
  statusMsg : String

/-- The flattened leaf rows (`updateRows` recomputes exactly this list). -/
def Model.rows (m : Model) : List SNode := collectLeaves m.root

/-- The structural/history keys of the TUI that the model handles
(`s`, `x`, `u`, `r` in `tui/keys.go`). -/
inductive Key where
  | splitKey
  | joinKey
  | undoKey
  | redoKey

/-- Modelled from the spec (§4.4): a structural mutation snapshots the
current tree onto the bounded undo stack (oldest entry evicted beyond 50)
and clears the redo stack. -/
def Model.pushUndo (m : Model) : Model :=
  { m with undoStack := (m.root :: m.undoStack).take maxHistorySize,
           redoStack := [] }

/-- Modelled from the spec: the key-driven transition of `handleKeyPress`
for the structural and history keys.  Split acts on the selected leaf when
its prefix is shorter than `MaxSplitDepth` (as in the visible
`tui/model.go` handler); join acts on the selected leaf's parent; undo/redo
pop tree snapshots and report "Undone"/"Nothing to undo"/"Redone"/
"Nothing to redo"; after every change the cursor is re-clamped to the new
rows (`updateRows`). -/
def Model.handleKey (m : Model) : Key → Model
  | .splitKey =>
    match (leafPaths m.root)[m.cursor]? with
    | none => m
    | some p =>
      match getAt m.root p with
      | none => m
      | some node =>
        if node.network.cidrBits < MaxSplitDepth then
          let m' := m.pushUndo
          let root' := modifyAt m.root p (fun nd => nd.split1.1)
          { m' with root := root',
                    cursor := min m.cursor ((collectLeaves root').length - 1) }
        else m
  | .joinKey =>
    match (leafPaths m.root)[m.cursor]? with
    | none => m
    | some p =>
      match p with
      | [] => m
      | _ :: _ =>
        let m' := m.pushUndo
        let root' := modifyAt m.root p.dropLast (fun nd => nd.join1.1)
        { m' with root := root',
                  cursor := min m.cursor ((collectLeaves root').length - 1) }
  | .undoKey =>
    match m.undoStack with
    | [] => { m with statusMsg := "Nothing to undo" }
    | prev :: rest =>
      { root := prev,
        cursor := min m.cursor ((collectLeaves prev).length - 1),
        undoStack := rest,
        redoStack := m.root :: m.redoStack,
        statusMsg := "Undone" }
  | .redoKey =>
    match m.redoStack with
    | [] => { m with statusMsg := "Nothing to redo" }
    | nxt :: rest =>
      { root := nxt,
        cursor := min m.cursor ((collectLeaves nxt).length - 1),
        undoStack := (m.root :: m.undoStack).take maxHistorySize,
        redoStack := rest,
        statusMsg := "Redone" }

/-- A concrete interactive state: a /29 split into two /30 leaves, the
pre-split tree in the undo history, the cursor on the first /30 row. -/
def exampleState : Model :=
  { root := ((createSubnetNode [192, 168, 1, 0] 29).split1).1,
    cursor := 0,
    undoStack := [createSubnetNode [192, 168, 1, 0] 29],
    redoStack := [],
    statusMsg := "" }

/-- A concrete interactive state: a fresh /24 leaf with empty history. -/
def freshState : Model :=
  { root := createSubnetNode [192, 168, 1, 0] 24,
    cursor := 0,
    undoStack := [],
    redoStack := [],
    statusMsg := "" }

/-! ### Hierarchy-span cells (`tui/render_cells.go`) -/

/-- The `spanInfo` struct of `tui/render_cells.go` (the `node` pointer is
not consulted by `buildSpanCell` and is omitted).  Row indices are
non-negative in every caller, so Go's `int` fields are `Nat` here. -/
structure spanInfo where
  startRow : Nat
  endRow : Nat
  rowCount : Nat

/-- Go's `fmt.Sprintf("%*s", w, s)`: right-justify in a field of `w`
(never truncating). -/
def padLeftGo (w : Nat) (s : String) : String :=
  String.mk (List.replicate (w - s.length) ' ') ++ s

/-- Go's `fmt.Sprintf("%-*s", w, s)`: left-justify in a field of `w`. -/
def padRightGo (w : Nat) (s : String) : String :=
  s ++ String.mk (List.replicate (w - s.length) ' ')

/-- Go's `strings.Repeat`. -/
def strRepeat (s : String) (n : Nat) : String :=
  String.join (List.replicate n s)

/-- `buildSpanCell` of `tui/render_cells.go`: the visual content of one row
of a merged hierarchy-column cell. -/
def buildSpanCell (si : spanInfo) (rowIdx bits splitColWidth : Nat) : String :=
  let posInSpan := rowIdx - si.startRow
  let spanSize := si.rowCount
  let isFirst := posInSpan = 0
  let isLast := posInSpan = spanSize - 1
  let midPoint := (spanSize - 1) / 2
  let isMid := posInSpan = midPoint
  let label := "/" ++ toString bits
  let innerWidth := splitColWidth - 2
  let paddedLabel := padRightGo innerWidth (padLeftGo ((innerWidth + label.length) / 2) label)
  let leftBorder := "│"
  let rightBorder := "│"
  if spanSize = 1 then leftBorder ++ paddedLabel ++ rightBorder
  else if spanSize = 2 then
    if isFirst then leftBorder ++ paddedLabel ++ rightBorder
    else "└" ++ strRepeat "─" innerWidth ++ "┘"
  else if spanSize = 3 then
    if isFirst then "┌" ++ strRepeat "─" innerWidth ++ "┐"
    else if isLast then "└" ++ strRepeat "─" innerWidth ++ "┘"
    else leftBorder ++ paddedLabel ++ rightBorder
  else if isFirst then "┌" ++ strRepeat "─" innerWidth ++ "┐"
  else if isLast then "└" ++ strRepeat "─" innerWidth ++ "┘"
  else if isMid then leftBorder ++ paddedLabel ++ rightBorder
  else leftBorder ++ strRepeat " " innerWidth ++ rightBorder

end SubnetCalc
namespace SubnetCalc

theorem addrVal_cons (b : Nat) (rest : List Nat) :
    addrVal (b :: rest) = b * 256 ^ rest.length + addrVal rest := rfl

theorem addrValLE_cons (b : Nat) (rest : List Nat) :
    addrValLE (b :: rest) = b + 256 * addrValLE rest := rfl

theorem two_pow_eight_mul (n : Nat) : (256 : Nat) ^ n = 2 ^ (8 * n) := by
  rw [pow_mul]; norm_num

theorem maskBytes_length (k r : Nat) : (maskBytes k r).length = k := by
  induction k generalizing r with
  | zero => rfl
  | succ k ih =>
    unfold maskBytes
    split
    · simp [ih]
    · split <;> simp [ih]

theorem maskBytes_ok (k r : Nat) : bytesOK (maskBytes k r) := by
  induction k generalizing r with
  | zero => intro b hb; simp [maskBytes] at hb
  | succ k ih =>
    intro b hb
    unfold maskBytes at hb
    split at hb
    · rcases List.mem_cons.mp hb with h | h
      · omega
      · exact ih _ b h
    · split at hb <;> rcases List.mem_cons.mp hb with h | h
      · subst h; exact Nat.mod_lt _ (by norm_num)
      · exact ih _ b h
      · omega
      · exact ih _ b h

theorem maskBytes_zero (k : Nat) : maskBytes k 0 = List.replicate k 0 := by
  induction k with
  | zero => rfl
  | succ k ih => simp [maskBytes, ih, List.replicate_succ]

theorem addrVal_lt {a : Addr} (h : bytesOK a) : addrVal a < 256 ^ a.length := by
  induction a with
  | nil => simp [addrVal]
  | cons b rest ih =>
    have hb : b < 256 := h b (List.mem_cons_self _ _)
    have hr : addrVal rest < 256 ^ rest.length :=
      ih (fun x hx => h x (List.mem_cons_of_mem _ hx))
    rw [addrVal_cons]
    calc b * 256 ^ rest.length + addrVal rest
        < b * 256 ^ rest.length + 256 ^ rest.length := by omega
      _ = (b + 1) * 256 ^ rest.length := by ring
      _ ≤ 256 * 256 ^ rest.length := by
          exact Nat.mul_le_mul_right _ (by omega)
      _ = 256 ^ (rest.length + 1) := by ring
      _ = 256 ^ (b :: rest).length := by simp

theorem addrValLE_lt {a : List Nat} (h : bytesOK a) : addrValLE a < 256 ^ a.length := by
  induction a with
  | nil => simp [addrValLE]
  | cons b rest ih =>
    have hb : b < 256 := h b (List.mem_cons_self _ _)
    have hr : addrValLE rest < 256 ^ rest.length :=
      ih (fun x hx => h x (List.mem_cons_of_mem _ hx))
    rw [addrValLE_cons]
    have : 256 ^ (b :: rest).length = 256 * 256 ^ rest.length := by
      simp [pow_succ]; ring
    omega

theorem addrValLE_append (l1 l2 : List Nat) :
    addrValLE (l1 ++ l2) = addrValLE l1 + 256 ^ l1.length * addrValLE l2 := by
  induction l1 with
  | nil => simp [addrValLE]
  | cons b rest ih =>
    simp only [List.cons_append, addrValLE_cons, ih, List.length_cons]
    ring

theorem addrVal_reverse (a : List Nat) : addrVal a = addrValLE a.reverse := by
  induction a with
  | nil => rfl
  | cons b rest ih =>
    simp only [addrVal_cons, List.reverse_cons, addrValLE_append, ih,
      List.length_reverse]
    simp [addrValLE]
    ring

theorem bytesOK_reverse {a : List Nat} (h : bytesOK a) : bytesOK a.reverse := by
  intro b hb; exact h b (List.mem_reverse.mp hb)

end SubnetCalc
namespace SubnetCalc

set_option maxRecDepth 10000 in
set_option maxHeartbeats 1000000 in
theorem byteAndMask : ∀ r < 9, ∀ x < 256,
    x &&& ((255 <<< (8 - r)) % 256) = x / 2 ^ (8 - r) * 2 ^ (8 - r) := by decide

set_option maxRecDepth 10000 in
set_option maxHeartbeats 1000000 in
theorem byteOrMask : ∀ r < 9, ∀ x < 256, x % 2 ^ (8 - r) = 0 →
    x ||| (255 ^^^ ((255 <<< (8 - r)) % 256)) = x + (2 ^ (8 - r) - 1) := by decide

set_option maxRecDepth 10000 in
theorem byteAnd255 : ∀ x < 256, x &&& 255 = x := by decide

set_option maxRecDepth 10000 in
theorem byteOr255 : ∀ y < 256, y ||| 255 = 255 := by decide

theorem byteMaskVal : ∀ r < 8, 0 < r → (255 <<< (8 - r)) % 256 = 256 - 2 ^ (8 - r) := by decide

theorem addrVal_replicate_zero (k : Nat) : addrVal (List.replicate k 0) = 0 := by
  induction k with
  | zero => rfl
  | succ n ihn => simpa [List.replicate_succ, addrVal_cons] using ihn

theorem addrVal_maskBytes (k : Nat) : ∀ r, r ≤ 8 * k →
    addrVal (maskBytes k r) = 2 ^ (8 * k) - 2 ^ (8 * k - r) := by
  induction k with
  | zero => intro r hr; interval_cases r; simp [maskBytes, addrVal]
  | succ k ih =>
    intro r hr
    unfold maskBytes
    split
    · rename_i h8
      rw [addrVal_cons, maskBytes_length, ih (r - 8) (by omega)]
      have hA : (256 : Nat) ^ k = 2 ^ (8 * k) := two_pow_eight_mul k
      have he1 : 8 * (k + 1) - r = 8 * k - (r - 8) := by omega
      have he2 : (2 : Nat) ^ (8 * (k + 1)) = 256 * 2 ^ (8 * k) := by
        rw [show 8 * (k + 1) = 8 * k + 8 by ring, pow_add]; ring
      have hX : (2 : Nat) ^ (8 * k - (r - 8)) ≤ 2 ^ (8 * k) :=
        Nat.pow_le_pow_right (by norm_num) (by omega)
      rw [he1, hA, he2]
      omega
    · split
      · rename_i h8 h0
        rw [addrVal_cons, maskBytes_length, byteMaskVal r (by omega) h0]
        rw [show maskBytes k 0 = List.replicate k 0 from maskBytes_zero k]
        rw [addrVal_replicate_zero]
        have hA : (256 : Nat) ^ k = 2 ^ (8 * k) := two_pow_eight_mul k
        have he1 : 8 * (k + 1) - r = (8 - r) + 8 * k := by omega
        have he2 : (2 : Nat) ^ (8 * (k + 1)) = 256 * 2 ^ (8 * k) := by
          rw [show 8 * (k + 1) = 8 * k + 8 by ring, pow_add]; ring
        rw [he1, hA, he2, pow_add, Nat.sub_mul]
        have hQ : (2 : Nat) ^ (8 - r) ≤ 256 := by
          calc (2:Nat) ^ (8 - r) ≤ 2 ^ 8 := Nat.pow_le_pow_right (by norm_num) (by omega)
          _ = 256 := by norm_num
        have := Nat.pow_pos (n := 8 * k) (show 0 < 2 by norm_num)
        omega
      · rename_i h8 h0
        have hr0 : r = 0 := by omega
        subst hr0
        rw [addrVal_cons, maskBytes_length]
        rw [show maskBytes k 0 = List.replicate k 0 from maskBytes_zero k]
        simp [addrVal_replicate_zero]

end SubnetCalc
namespace SubnetCalc

theorem div_mul_add_of_dvd (c M v D : Nat) (hD : 0 < D) (hdvd : D ∣ M) :
    (c * M + v) / D * D = c * M + v / D * D := by
  obtain ⟨k, rfl⟩ := hdvd
  calc (c * (D * k) + v) / D * D
      = (v + c * k * D) / D * D := by ring_nf
    _ = (v / D + c * k) * D := by rw [Nat.add_mul_div_right _ _ hD]
    _ = c * (D * k) + v / D * D := by ring

theorem zipWith_replicate_right {α β γ : Type} (f : α → β → γ) (l : List α) (c : β) :
    List.zipWith f l (List.replicate l.length c) = l.map (fun x => f x c) := by
  induction l with
  | nil => rfl
  | cons b rest ih => simp [List.replicate_succ, ih]

theorem addrVal_zip_and_zero (a : List Nat) :
    addrVal (List.zipWith (fun x m => x &&& m) a (maskBytes a.length 0)) = 0 := by
  rw [maskBytes_zero, zipWith_replicate_right]
  induction a with
  | nil => rfl
  | cons b rest ih => simpa [addrVal_cons, Nat.and_zero] using ih

theorem addrVal_zip_and_maskBytes (a : List Nat) : ∀ r, bytesOK a → r ≤ 8 * a.length →
    addrVal (List.zipWith (fun x m => x &&& m) a (maskBytes a.length r))
      = addrVal a / 2 ^ (8 * a.length - r) * 2 ^ (8 * a.length - r) := by
  induction a with
  | nil =>
    intro r _ hr
    simp only [List.length_nil, Nat.mul_zero, Nat.le_zero] at hr
    subst hr; rfl
  | cons x rest ih =>
    intro r ha hr
    have hx : x < 256 := ha x (List.mem_cons_self _ _)
    have harest : bytesOK rest := fun y hy => ha y (List.mem_cons_of_mem _ hy)
    have hvrest : addrVal rest < 256 ^ rest.length := addrVal_lt harest
    have hA : (256 : Nat) ^ rest.length = 2 ^ (8 * rest.length) := two_pow_eight_mul _
    simp only [List.length_cons] at hr ⊢
    unfold maskBytes
    split
    · rename_i h8
      simp only [List.zipWith_cons_cons, addrVal_cons, List.length_zipWith,
        maskBytes_length, min_self]
      rw [byteAnd255 x hx, ih (r - 8) harest (by omega)]
      have he1 : 8 * (rest.length + 1) - r = 8 * rest.length - (r - 8) := by omega
      rw [he1]
      have hdvd : (2 : Nat) ^ (8 * rest.length - (r - 8)) ∣ 256 ^ rest.length := by
        rw [hA]; exact pow_dvd_pow 2 (by omega)
      exact (div_mul_add_of_dvd x (256 ^ rest.length) (addrVal rest) _
        (Nat.pow_pos (by norm_num)) hdvd).symm
    · split
      · rename_i h8 h0
        simp only [List.zipWith_cons_cons, addrVal_cons, List.length_zipWith,
          maskBytes_length, min_self]
        rw [byteAndMask r (by omega) x hx, addrVal_zip_and_zero rest]
        have he1 : 8 * (rest.length + 1) - r = (8 - r) + 8 * rest.length := by omega
        rw [he1, pow_add]
        have hdivides : (x * 256 ^ rest.length + addrVal rest) / (2 ^ (8 - r) * 2 ^ (8 * rest.length))
            = x / 2 ^ (8 - r) := by
          rw [← hA, mul_comm ((2:Nat) ^ (8 - r)) _, ← Nat.div_div_eq_div_mul]
          rw [mul_comm x _, Nat.mul_add_div (Nat.pow_pos (by norm_num)),
            Nat.div_eq_of_lt hvrest]
          simp
        rw [hdivides, hA]
        ring
      · rename_i h8 h0
        have hr0 : r = 0 := by omega
        subst hr0
        simp only [List.zipWith_cons_cons, addrVal_cons, Nat.and_zero,
          List.length_zipWith, maskBytes_length, min_self, Nat.zero_mul,
          Nat.zero_add]
        rw [addrVal_zip_and_zero rest]
        have hlt : addrVal (x :: rest) < 2 ^ (8 * (rest.length + 1) - 0) := by
          have := addrVal_lt ha
          simp only [List.length_cons] at this
          simpa [two_pow_eight_mul, Nat.mul_comm] using this
        rw [addrVal_cons] at hlt
        rw [Nat.div_eq_of_lt hlt]
        simp

end SubnetCalc
namespace SubnetCalc

theorem addrVal_replicate_255 (k : Nat) :
    addrVal (List.replicate k 255) = 256 ^ k - 1 := by
  induction k with
  | zero => rfl
  | succ n ih =>
    rw [List.replicate_succ, addrVal_cons, List.length_replicate, ih]
    have h1 : (1 : Nat) ≤ 256 ^ n := Nat.one_le_pow _ _ (by norm_num)
    have h2 : (256 : Nat) ^ (n + 1) = 256 * 256 ^ n := by ring
    omega

theorem map_const_of_mem {α β : Type} {l : List α} {g : α → β} {c : β}
    (h : ∀ y ∈ l, g y = c) : l.map g = List.replicate l.length c := by
  induction l with
  | nil => rfl
  | cons b rest ih =>
    rw [List.map_cons, h b (List.mem_cons_self _ _), List.length_cons,
      List.replicate_succ, ih (fun y hy => h y (List.mem_cons_of_mem _ hy))]

theorem addrVal_or_zeroMask (rest : List Nat) (h : bytesOK rest) :
    addrVal (List.zipWith (fun x m => x ||| (255 ^^^ m)) rest (maskBytes rest.length 0))
      = 256 ^ rest.length - 1 := by
  rw [maskBytes_zero, zipWith_replicate_right]
  have hx0 : (255 : Nat) ^^^ 0 = 255 := by decide
  have hmap : rest.map (fun x => x ||| (255 ^^^ 0)) = List.replicate rest.length 255 := by
    refine map_const_of_mem (fun y hy => ?_)
    rw [hx0]
    exact byteOr255 y (h y hy)
  rw [hmap, addrVal_replicate_255]

theorem addrVal_broadcast_maskBytes (a : List Nat) : ∀ r, bytesOK a → r ≤ 8 * a.length →
    addrVal a % 2 ^ (8 * a.length - r) = 0 →
    addrVal (CalculateBroadcastAddr a (maskBytes a.length r))
      = addrVal a + (2 ^ (8 * a.length - r) - 1) := by
  induction a with
  | nil =>
    intro r _ hr _
    simp only [List.length_nil, Nat.mul_zero, Nat.le_zero] at hr
    subst hr; rfl
  | cons x rest ih =>
    intro r ha hr halign
    have hx : x < 256 := ha x (List.mem_cons_self _ _)
    have harest : bytesOK rest := fun y hy => ha y (List.mem_cons_of_mem _ hy)
    have hvrest : addrVal rest < 256 ^ rest.length := addrVal_lt harest
    have hA : (256 : Nat) ^ rest.length = 2 ^ (8 * rest.length) := two_pow_eight_mul _
    have hPpos : 0 < (256 : Nat) ^ rest.length := Nat.pow_pos (by norm_num)
    simp only [List.length_cons] at hr halign ⊢
    unfold maskBytes CalculateBroadcastAddr
    split
    · rename_i h8
      simp only [List.zipWith_cons_cons, addrVal_cons, List.length_zipWith,
        maskBytes_length, min_self]
      have hxor : (255 : Nat) ^^^ 255 = 0 := by decide
      rw [hxor, Nat.or_zero]
      have he1 : 8 * (rest.length + 1) - r = 8 * rest.length - (r - 8) := by omega
      rw [he1] at halign ⊢
      have hdvd : (2 : Nat) ^ (8 * rest.length - (r - 8)) ∣ 256 ^ rest.length := by
        rw [hA]; exact pow_dvd_pow 2 (by omega)
      have halign' : addrVal rest % 2 ^ (8 * rest.length - (r - 8)) = 0 := by
        obtain ⟨k, hk⟩ := hdvd
        rw [addrVal_cons, hk] at halign
        rw [show x * (2 ^ (8 * rest.length - (r - 8)) * k) + addrVal rest
          = addrVal rest + (x * k) * 2 ^ (8 * rest.length - (r - 8)) by ring,
          Nat.add_mul_mod_self_right] at halign
        exact halign
      have ihr := ih (r - 8) harest (by omega) halign'
      unfold CalculateBroadcastAddr at ihr
      rw [ihr]
      omega
    · split
      · rename_i h8 h0
        simp only [List.zipWith_cons_cons, addrVal_cons, List.length_zipWith,
          maskBytes_length, min_self]
        have he1 : 8 * (rest.length + 1) - r = (8 - r) + 8 * rest.length := by omega
        rw [he1] at halign ⊢
        rw [pow_add] at halign ⊢
        have hQpos : 0 < (2 : Nat) ^ (8 - r) := Nat.pow_pos (by norm_num)
        have hvrest0 : addrVal rest = 0 := by
          have hdvd0 : (2 : Nat) ^ (8 * rest.length) ∣ 2 ^ (8 - r) * 2 ^ (8 * rest.length) :=
            dvd_mul_left _ _
          have h1 := Nat.mod_mod_of_dvd (addrVal (x :: rest)) hdvd0
          rw [halign] at h1
          rw [addrVal_cons, hA, show x * 2 ^ (8 * rest.length) + addrVal rest
            = addrVal rest + x * 2 ^ (8 * rest.length) by ring,
            Nat.add_mul_mod_self_right] at h1
          rw [hA] at hvrest
          rw [Nat.mod_eq_of_lt hvrest] at h1
          exact h1.symm
        have hxalign : x % 2 ^ (8 - r) = 0 := by
          rw [addrVal_cons, hvrest0, Nat.add_zero, hA] at halign
          have hdvd2 : (2 ^ (8 - r) * 2 ^ (8 * rest.length)) ∣ x * 2 ^ (8 * rest.length) :=
            Nat.dvd_of_mod_eq_zero halign
          have hdvd3 : (2 : Nat) ^ (8 - r) ∣ x :=
            (Nat.mul_dvd_mul_iff_right
              (Nat.pow_pos (n := 8 * rest.length) (show 0 < 2 by norm_num))).mp hdvd2
          obtain ⟨k, rfl⟩ := hdvd3
          exact Nat.mul_mod_right _ _
        rw [byteOrMask r (by omega) x hx hxalign, addrVal_or_zeroMask rest harest,
          hvrest0, Nat.add_zero]
        rw [← hA]
        have h1 : (1 : Nat) ≤ 2 ^ (8 - r) := Nat.one_le_two_pow
        have h2 : (1 : Nat) ≤ 256 ^ rest.length := hPpos
        have h3 : (1 : Nat) ≤ 2 ^ (8 - r) * 256 ^ rest.length := Nat.one_le_iff_ne_zero.mpr
          (by positivity)
        zify [h1, h2, h3]
        ring
      · rename_i h8 h0
        have hr0 : r = 0 := by omega
        subst hr0
        simp only [List.zipWith_cons_cons, addrVal_cons, List.length_zipWith,
          maskBytes_length, min_self, Nat.sub_zero]
        have hx255 : x ||| (255 ^^^ 0) = 255 := by
          rw [show (255 : Nat) ^^^ 0 = 255 from by decide]
          exact byteOr255 x hx
        rw [hx255, addrVal_or_zeroMask rest harest]
        have hval0 : addrVal (x :: rest) = 0 := by
          have hlt : addrVal (x :: rest) < 2 ^ (8 * (rest.length + 1)) := by
            have := addrVal_lt ha
            simp only [List.length_cons] at this
            rwa [two_pow_eight_mul] at this
          rw [Nat.sub_zero] at halign
          rwa [Nat.mod_eq_of_lt hlt] at halign
        rw [addrVal_cons] at hval0
        have hpow : (2 : Nat) ^ (8 * (rest.length + 1)) = 256 * 256 ^ rest.length := by
          rw [show 8 * (rest.length + 1) = 8 * rest.length + 8 by ring, pow_add, ← hA]
          ring
        rw [hpow]
        omega

end SubnetCalc
namespace SubnetCalc

theorem mod_decomp (t q M : Nat) (ht : t < 256) (hM : 0 < M) :
    (t + 256 * q) % (256 * M) = t + 256 * (q % M) := by
  have hq : M * (q / M) + q % M = q := Nat.div_add_mod q M
  have hsplit : t + 256 * q = (t + 256 * (q % M)) + (q / M) * (256 * M) := by
    calc t + 256 * q = t + 256 * (M * (q / M) + q % M) := by rw [hq]
      _ = (t + 256 * (q % M)) + (q / M) * (256 * M) := by ring
  rw [hsplit, Nat.add_mul_mod_self_right]
  have hlt : t + 256 * (q % M) < 256 * M := by
    have := Nat.mod_lt q hM
    omega
  exact Nat.mod_eq_of_lt hlt

theorem addBytesLE_length (l : List Nat) (c : Nat) : (addBytesLE l c).length = l.length := by
  induction l generalizing c with
  | nil => rfl
  | cons b rest ih => simp [addBytesLE, ih]

theorem addBytesLE_ok (l : List Nat) (c : Nat) : bytesOK (addBytesLE l c) := by
  induction l generalizing c with
  | nil => intro y hy; simp [addBytesLE] at hy
  | cons b rest ih =>
    intro y hy
    unfold addBytesLE at hy
    rcases List.mem_cons.mp hy with h | h
    · subst h; exact Nat.mod_lt _ (by norm_num)
    · exact ih _ y h

theorem addrValLE_addBytesLE (l : List Nat) : ∀ c,
    addrValLE (addBytesLE l c) = (addrValLE l + c) % 256 ^ l.length := by
  induction l with
  | nil => intro c; simp [addBytesLE, addrValLE, Nat.mod_one]
  | cons b rest ih =>
    intro c
    unfold addBytesLE
    rw [addrValLE_cons, addrValLE_cons, ih ((b + c) / 256)]
    have hM : 0 < (256 : Nat) ^ rest.length := Nat.pow_pos (by norm_num)
    have hsplit : b + 256 * addrValLE rest + c
        = (b + c) % 256 + 256 * (addrValLE rest + (b + c) / 256) := by
      omega
    rw [List.length_cons, pow_succ, mul_comm ((256:Nat) ^ rest.length) 256, hsplit]
    rw [mod_decomp _ _ _ (Nat.mod_lt _ (by norm_num)) hM]

theorem AddToAddr_length (a : Addr) (n : Nat) : (AddToAddr a n).length = a.length := by
  unfold AddToAddr
  rw [List.length_reverse, addBytesLE_length, List.length_reverse]

theorem AddToAddr_ok (a : Addr) (n : Nat) : bytesOK (AddToAddr a n) := by
  intro y hy
  unfold AddToAddr at hy
  exact addBytesLE_ok a.reverse n y (List.mem_reverse.mp hy)

theorem addrVal_AddToAddr (a : Addr) (n : Nat) :
    addrVal (AddToAddr a n) = (addrVal a + n) % 256 ^ a.length := by
  unfold AddToAddr
  rw [addrVal_reverse, List.reverse_reverse, addrValLE_addBytesLE,
    List.length_reverse, addrVal_reverse]

theorem subOneBytesLE_length (l : List Nat) : (subOneBytesLE l).length = l.length := by
  induction l with
  | nil => rfl
  | cons b rest ih =>
    unfold subOneBytesLE
    split <;> simp [ih]

theorem subOneBytesLE_ok (l : List Nat) (h : bytesOK l) : bytesOK (subOneBytesLE l) := by
  induction l with
  | nil => intro y hy; simp [subOneBytesLE] at hy
  | cons b rest ih =>
    have hb : b < 256 := h b (List.mem_cons_self _ _)
    have hrest : bytesOK rest := fun y hy => h y (List.mem_cons_of_mem _ hy)
    intro y hy
    unfold subOneBytesLE at hy
    split at hy
    · rcases List.mem_cons.mp hy with h1 | h1
      · omega
      · exact ih hrest y h1
    · rcases List.mem_cons.mp hy with h1 | h1
      · omega
      · exact hrest y h1

theorem mod_pred (v M : Nat) (hM : 0 < M) (hv : v < M) :
    (v + (M - 1)) % M = if v = 0 then M - 1 else v - 1 := by
  split
  · rename_i h0
    subst h0
    rw [Nat.zero_add]
    exact Nat.mod_eq_of_lt (by omega)
  · rename_i h0
    rw [show v + (M - 1) = (v - 1) + M by omega, Nat.add_mod_right]
    exact Nat.mod_eq_of_lt (by omega)

theorem addrValLE_subOne (l : List Nat) (h : bytesOK l) :
    addrValLE (subOneBytesLE l) = (addrValLE l + (256 ^ l.length - 1)) % 256 ^ l.length := by
  induction l with
  | nil => simp [subOneBytesLE, addrValLE, Nat.mod_one]
  | cons b rest ih =>
    have hb : b < 256 := h b (List.mem_cons_self _ _)
    have hrest : bytesOK rest := fun y hy => h y (List.mem_cons_of_mem _ hy)
    have hvr : addrValLE rest < 256 ^ rest.length := addrValLE_lt hrest
    have hM : 0 < (256 : Nat) ^ rest.length := Nat.pow_pos (by norm_num)
    have hpow : (256 : Nat) ^ (rest.length + 1) = 256 * 256 ^ rest.length := by ring
    unfold subOneBytesLE
    split
    · rename_i hb0
      subst hb0
      rw [addrValLE_cons, addrValLE_cons, ih hrest, List.length_cons, hpow]
      rw [mod_pred _ _ hM hvr,
        mod_pred (0 + 256 * addrValLE rest) (256 * 256 ^ rest.length) (by omega) (by omega)]
      split <;> split <;> omega
    · rename_i hb0
      rw [addrValLE_cons, addrValLE_cons, List.length_cons, hpow]
      rw [mod_pred (b + 256 * addrValLE rest) (256 * 256 ^ rest.length) (by omega) (by omega)]
      split <;> omega

theorem prevAddr_length (a : Addr) : (prevAddr a).length = a.length := by
  unfold prevAddr
  rw [List.length_reverse, subOneBytesLE_length, List.length_reverse]

theorem prevAddr_ok (a : Addr) (h : bytesOK a) : bytesOK (prevAddr a) := by
  intro y hy
  unfold prevAddr at hy
  exact subOneBytesLE_ok a.reverse (bytesOK_reverse h) y (List.mem_reverse.mp hy)

theorem addrVal_prevAddr (a : Addr) (h : bytesOK a) :
    addrVal (prevAddr a) = (addrVal a + (256 ^ a.length - 1)) % 256 ^ a.length := by
  unfold prevAddr
  rw [addrVal_reverse, List.reverse_reverse, addrValLE_subOne _ (bytesOK_reverse h),
    List.length_reverse, addrVal_reverse]

end SubnetCalc
namespace SubnetCalc

theorem CalculateSubnetMask_eq (bits l : Nat) :
    CalculateSubnetMask bits (8 * l) = maskBytes l bits := by
  unfold CalculateSubnetMask
  rw [Nat.mul_div_cancel_left _ (show 0 < 8 by norm_num)]

theorem bytesOK_zip_and (a : List Nat) (h : bytesOK a) :
    ∀ m, bytesOK (List.zipWith (fun x m => x &&& m) a m) := by
  induction a with
  | nil => intro m y hy; simp at hy
  | cons b rest ih =>
    intro m y hy
    have hb : b < 256 := h b (List.mem_cons_self _ _)
    have hrest : bytesOK rest := fun x hx => h x (List.mem_cons_of_mem _ hx)
    match m with
    | [] => simp at hy
    | c :: cs =>
      simp only [List.zipWith_cons_cons, List.mem_cons] at hy
      rcases hy with h1 | h1
      · subst h1
        calc b &&& c ≤ b := Nat.and_le_left
          _ < 256 := hb
      · exact ih hrest cs y h1

theorem bytesOK_zip_or (a : List Nat) (ha : bytesOK a) :
    ∀ m, bytesOK m → bytesOK (List.zipWith (fun x m => x ||| (255 ^^^ m)) a m) := by
  induction a with
  | nil => intro m _ y hy; simp at hy
  | cons b rest ih =>
    intro m hm y hy
    have hb : b < 256 := ha b (List.mem_cons_self _ _)
    have hrest : bytesOK rest := fun x hx => ha x (List.mem_cons_of_mem _ hx)
    match m with
    | [] => simp at hy
    | c :: cs =>
      simp only [List.zipWith_cons_cons, List.mem_cons] at hy
      rcases hy with h1 | h1
      · subst h1
        have hc : (255 : Nat) ^^^ c < 2 ^ 8 :=
          Nat.xor_lt_two_pow (by norm_num)
            (by have := hm c (List.mem_cons_self _ _); omega)
        have := Nat.or_lt_two_pow (show b < 2 ^ 8 by omega) hc
        omega
      · exact ih hrest cs (fun x hx => hm x (List.mem_cons_of_mem _ hx)) y h1

theorem maskedAddr_length (a : Addr) (bits : Nat) :
    (maskedAddr a bits).length = a.length := by
  unfold maskedAddr
  rw [List.length_zipWith, CalculateSubnetMask_eq, maskBytes_length, min_self]

theorem maskedAddr_ok (a : Addr) (bits : Nat) (h : bytesOK a) :
    bytesOK (maskedAddr a bits) :=
  bytesOK_zip_and a h _

theorem maskedAddr_val (a : Addr) (bits : Nat) (ha : bytesOK a)
    (hb : bits ≤ 8 * a.length) :
    addrVal (maskedAddr a bits)
      = addrVal a / 2 ^ (8 * a.length - bits) * 2 ^ (8 * a.length - bits) := by
  unfold maskedAddr
  rw [CalculateSubnetMask_eq]
  exact addrVal_zip_and_maskBytes a bits ha hb

theorem maskedAddr_align (a : Addr) (bits : Nat) (ha : bytesOK a)
    (hb : bits ≤ 8 * a.length) :
    addrVal (maskedAddr a bits) % 2 ^ (8 * a.length - bits) = 0 := by
  rw [maskedAddr_val a bits ha hb]
  exact Nat.mul_mod_left _ _

theorem NNFP_cidrAddr (a : Addr) (bits : Nat) :
    (NewNetworkFromPrefix a bits).cidrAddr = maskedAddr a bits := rfl

theorem NNFP_cidrBits (a : Addr) (bits : Nat) :
    (NewNetworkFromPrefix a bits).cidrBits = bits := rfl

theorem NNFP_maskBits (a : Addr) (bits : Nat) :
    (NewNetworkFromPrefix a bits).maskBits = bits := rfl

theorem NNFP_networkAddr (a : Addr) (bits : Nat) :
    (NewNetworkFromPrefix a bits).networkAddr = maskedAddr a bits := rfl

theorem NNFP_subnetMask (a : Addr) (bits : Nat) :
    (NewNetworkFromPrefix a bits).subnetMask
      = CalculateSubnetMask bits (8 * a.length) := rfl

theorem NNFP_broadcastAddr (a : Addr) (bits : Nat) :
    (NewNetworkFromPrefix a bits).broadcastAddr
      = CalculateBroadcastAddr (maskedAddr a bits)
        (CalculateSubnetMask bits (8 * a.length)) := rfl

theorem NNFP_firstHostIP (a : Addr) (bits : Nat) :
    (NewNetworkFromPrefix a bits).firstHostIP = nextAddr (maskedAddr a bits) := rfl

theorem NNFP_lastHostIP (a : Addr) (bits : Nat) :
    (NewNetworkFromPrefix a bits).lastHostIP
      = prevAddr ((NewNetworkFromPrefix a bits).broadcastAddr) := rfl

theorem NNFP_maxHosts (a : Addr) (bits : Nat) :
    (NewNetworkFromPrefix a bits).maxHosts
      = CalculateMaxHosts (8 * a.length : Nat) (bits : Nat) := rfl

theorem NNFP_subnets (a : Addr) (bits : Nat) :
    (NewNetworkFromPrefix a bits).subnets = [] := rfl

theorem NNFP_networkAddr_val (a : Addr) (bits : Nat) (ha : bytesOK a)
    (hb : bits ≤ 8 * a.length) :
    addrVal (NewNetworkFromPrefix a bits).networkAddr
      = addrVal a / 2 ^ (8 * a.length - bits) * 2 ^ (8 * a.length - bits) := by
  rw [NNFP_networkAddr]
  exact maskedAddr_val a bits ha hb

theorem NNFP_broadcastAddr_val (a : Addr) (bits : Nat) (ha : bytesOK a)
    (hb : bits ≤ 8 * a.length) :
    addrVal (NewNetworkFromPrefix a bits).broadcastAddr
      = addrVal (NewNetworkFromPrefix a bits).networkAddr
        + (2 ^ (8 * a.length - bits) - 1) := by
  rw [NNFP_broadcastAddr, NNFP_networkAddr]
  have hlen : (maskedAddr a bits).length = a.length := maskedAddr_length a bits
  rw [CalculateSubnetMask_eq]
  have := addrVal_broadcast_maskBytes (maskedAddr a bits) bits
    (maskedAddr_ok a bits ha) (by rw [hlen]; exact hb)
    (by rw [hlen]; exact maskedAddr_align a bits ha hb)
  rw [hlen] at this
  exact this

theorem NNFP_networkAddr_length (a : Addr) (bits : Nat) :
    (NewNetworkFromPrefix a bits).networkAddr.length = a.length :=
  maskedAddr_length a bits

theorem NNFP_networkAddr_ok (a : Addr) (bits : Nat) (ha : bytesOK a) :
    bytesOK (NewNetworkFromPrefix a bits).networkAddr :=
  maskedAddr_ok a bits ha

theorem NNFP_broadcastAddr_length (a : Addr) (bits : Nat) :
    (NewNetworkFromPrefix a bits).broadcastAddr.length = a.length := by
  rw [NNFP_broadcastAddr]
  unfold CalculateBroadcastAddr
  rw [List.length_zipWith, CalculateSubnetMask_eq, maskBytes_length,
    maskedAddr_length]
  omega

theorem NNFP_broadcastAddr_ok (a : Addr) (bits : Nat) (ha : bytesOK a) :
    bytesOK (NewNetworkFromPrefix a bits).broadcastAddr := by
  rw [NNFP_broadcastAddr]
  exact bytesOK_zip_or _ (maskedAddr_ok a bits ha) _
    (by rw [CalculateSubnetMask_eq]; exact maskBytes_ok _ _)

theorem NNFP_networkAddr_align (a : Addr) (bits : Nat) (ha : bytesOK a)
    (hb : bits ≤ 8 * a.length) :
    addrVal (NewNetworkFromPrefix a bits).networkAddr % 2 ^ (8 * a.length - bits) = 0 := by
  rw [NNFP_networkAddr]
  exact maskedAddr_align a bits ha hb

end SubnetCalc
namespace SubnetCalc

/-- C5: `CalculateMaxHosts(addrBits, maskBits)` is the exact unbounded
integer `2^(addrBits-maskBits) - 2` when that value is positive and `0`
otherwise; in particular the IPv4 /24, /30, /31 values and the IPv6 /64
value `2^64 - 2`, computed without 64-bit overflow. -/
theorem C5_calculateMaxHosts_law :
    (∀ addrBits maskBits : Int,
      CalculateMaxHosts addrBits maskBits =
        if 2 ≤ addrBits - maskBits
        then (2 : Int) ^ (addrBits - maskBits).toNat - 2
        else 0) ∧
    CalculateMaxHosts 32 24 = 254 ∧
    CalculateMaxHosts 32 30 = 2 ∧
    CalculateMaxHosts 32 31 = 0 ∧
    CalculateMaxHosts 128 64 = 2 ^ 64 - 2 := by
  refine ⟨?_, by decide, by decide, by decide, by decide⟩
  intro A M
  by_cases h : A - M ≤ 0
  · simp only [CalculateMaxHosts, if_pos h, if_neg (show ¬ 2 ≤ A - M by omega)]
  · by_cases h2 : 2 ≤ A - M
    · have h4 : (4 : Int) ≤ 2 ^ (A - M).toNat := by
        calc (4 : Int) = 2 ^ 2 := by norm_num
          _ ≤ 2 ^ (A - M).toNat := pow_le_pow_right₀ (by norm_num) (by omega)
      simp only [CalculateMaxHosts, if_neg h, if_pos h2,
        if_neg (show ¬ ((2 : Int) ^ (A - M).toNat - 2 < 0) by omega)]
    · have h1 : (A - M).toNat = 1 := by omega
      simp only [CalculateMaxHosts, if_neg h, if_neg h2, h1]
      norm_num

/-- C10: the `Hosts()` accessor saturates instead of overflowing: a
`MaxHosts` above the maximum machine uint is reported as the all-bits-set
maximum uint, and any smaller value is reported exactly. -/
theorem C10_hosts_saturates :
    ∀ (n : SNode), 0 ≤ n.network.maxHosts →
      ((2 : Int) ^ 64 - 1 < n.network.maxHosts → n.hosts = uintMax) ∧
      (n.network.maxHosts ≤ (2 : Int) ^ 64 - 1 → (n.hosts : Int) = n.network.maxHosts) := by
  intro n h0
  constructor
  · intro hbig
    unfold SNode.hosts
    rw [if_pos (by omega)]
  · intro hsmall
    unfold SNode.hosts
    rw [if_neg (by omega)]
    have htoNat : (n.network.maxHosts.toNat : Int) = n.network.maxHosts :=
      Int.toNat_of_nonneg h0
    have : ¬ n.network.maxHosts.toNat > uintMax := by
      unfold uintMax
      omega
    rw [if_neg this, htoNat]

set_option maxRecDepth 10000 in
/-- C10 witness: an IPv6 /0 network has `2^128 - 2` hosts, reported as the
saturated maximum uint. -/
theorem C10_hosts_saturates_witness :
    SNode.hosts (createSubnetNode (List.replicate 16 0) 0) = uintMax :=
  (C10_hosts_saturates (createSubnetNode (List.replicate 16 0) 0) (by decide)).1 (by decide)

end SubnetCalc
namespace SubnetCalc

/-- C9 counterexample: a hierarchy-column run of length 1 is rendered as the
label between the two vertical borders only — none of the box-corner or
horizontal-edge characters of a four-sided cell appear, so a length-1 run
does not "draw all four sides". -/
theorem C9_counterexample :
    buildSpanCell ⟨0, 0, 1⟩ 0 24 5 = "│/24│" ∧
    '┌' ∉ (buildSpanCell ⟨0, 0, 1⟩ 0 24 5).toList ∧
    '┐' ∉ (buildSpanCell ⟨0, 0, 1⟩ 0 24 5).toList ∧
    '└' ∉ (buildSpanCell ⟨0, 0, 1⟩ 0 24 5).toList ∧
    '┘' ∉ (buildSpanCell ⟨0, 0, 1⟩ 0 24 5).toList ∧
    '─' ∉ (buildSpanCell ⟨0, 0, 1⟩ 0 24 5).toList := by
  decide

/-- C9 (amended): `buildSpanCell` follows the run-length border rules: a run
of length 1 draws the centered label between plain vertical borders (not a
four-sided box); length 2 draws the label row first and a closing edge
second; length 3 or more draws an opening edge on the first row, a closing
edge on the last row, the centered label on the row at index
`(rowCount-1)/2`, and vertical-only borders elsewhere. -/
theorem C9_buildSpanCell_rules (si : spanInfo) (rowIdx bits width : Nat)
    (hpos : 0 < si.rowCount) (hin : rowIdx - si.startRow < si.rowCount) :
    buildSpanCell si rowIdx bits width =
      (let pos := rowIdx - si.startRow
       let inner := width - 2
       let lbl := padRightGo inner
         (padLeftGo ((inner + ("/" ++ toString bits).length) / 2) ("/" ++ toString bits))
       if si.rowCount = 1 then "│" ++ lbl ++ "│"
       else if si.rowCount = 2 then
         if pos = 0 then "│" ++ lbl ++ "│" else "└" ++ strRepeat "─" inner ++ "┘"
       else
         if pos = 0 then "┌" ++ strRepeat "─" inner ++ "┐"
         else if pos = si.rowCount - 1 then "└" ++ strRepeat "─" inner ++ "┘"
         else if pos = (si.rowCount - 1) / 2 then "│" ++ lbl ++ "│"
         else "│" ++ strRepeat " " inner ++ "│") := by
  unfold buildSpanCell
  dsimp only
  split_ifs <;> first | rfl | omega

/-- C9 witness: the rules evaluated on a four-row span at its second row,
the centered-label row. -/
theorem C9_buildSpanCell_rules_witness :
    buildSpanCell ⟨0, 3, 4⟩ 1 24 5 = "│/24│" := by
  rw [C9_buildSpanCell_rules ⟨0, 3, 4⟩ 1 24 5 (by decide) (by decide)]
  decide

/-- C7 counterexample: on an already-split node, `Split()` is a no-op and
`Join()` then collapses the subtree, so `Split(); Join()` does not restore a
node structurally identical to the pre-split node. -/
theorem C7_counterexample :
    ((createSubnetNode [192, 168, 1, 0] 24).split1.1.split1.1.join1).1
      ≠ (createSubnetNode [192, 168, 1, 0] 24).split1.1 := by
  intro h
  have h0 : (((createSubnetNode [192, 168, 1, 0] 24).split1.1.split1.1.join1).1).children.length
      = 0 := by decide
  rw [h] at h0
  have h2 : ((createSubnetNode [192, 168, 1, 0] 24).split1.1).children.length = 2 := by
    decide
  omega

/-- C7 (amended): `Join()` returns false and changes nothing on an unsplit
node; on a split node it removes the node's entire subtree — whatever the
children hold, all descendants included — leaving `children = []` and
`isSplit = false` and returning true; and on any unsplit node (children
empty), `Split()` followed by `Join()` restores `isSplit = false` and
`children = []` — a node structurally identical to the pre-split node. -/
theorem C7_split_join_inverse :
    (∀ n : SNode, n.isSplit = false → n.join1 = (n, false)) ∧
    (∀ n : SNode, n.isSplit = true →
      n.join1 = (SNode.mk n.network [] false, true)) ∧
    (∀ n : SNode, n.isSplit = false → n.children = [] →
      (n.split1.1.join1).1 = n) := by
  refine ⟨?_, ?_, ?_⟩
  · intro n hn
    unfold SNode.join1
    rw [hn]
    simp
  · intro n hn
    unfold SNode.join1
    rw [hn]
    simp
  · intro n hn hch
    match n with
    | .mk net ch sp =>
      simp only [SNode.isSplit] at hn
      simp only [SNode.children] at hch
      subst hn
      subst hch
      unfold SNode.split1
      by_cases hd : MaxSplitDepth ≤ (SNode.mk net [] false).network.cidrBits
      · rw [if_pos (by simp [SNode.isSplit, hd])]
        unfold SNode.join1
        simp [SNode.isSplit]
      · rw [if_neg (by simp [SNode.isSplit, hd])]
        unfold SNode.join1
        simp [SNode.isSplit, SNode.network]

/-- C7 witness: a fresh /24 leaf node: join is a no-op on it, joining it
after a two-level split drops the whole two-level subtree at once, and
split-then-join restores it exactly. -/
theorem C7_split_join_inverse_witness :
    (createSubnetNode [10, 0, 0, 0] 24).join1 = (createSubnetNode [10, 0, 0, 0] 24, false) ∧
    (applyTreeOps (createSubnetNode [10, 0, 0, 0] 24)
        [TreeOp.splitOp [], TreeOp.splitOp [0]]).join1
      = (SNode.mk (applyTreeOps (createSubnetNode [10, 0, 0, 0] 24)
          [TreeOp.splitOp [], TreeOp.splitOp [0]]).network [] false,
         true) ∧
    ((createSubnetNode [10, 0, 0, 0] 24).split1.1.join1).1 = createSubnetNode [10, 0, 0, 0] 24 :=
  ⟨C7_split_join_inverse.1 (createSubnetNode [10, 0, 0, 0] 24) rfl,
   C7_split_join_inverse.2.1 (applyTreeOps (createSubnetNode [10, 0, 0, 0] 24)
     [TreeOp.splitOp [], TreeOp.splitOp [0]]) (by decide),
   C7_split_join_inverse.2.2 (createSubnetNode [10, 0, 0, 0] 24) rfl rfl⟩

end SubnetCalc
namespace SubnetCalc

theorem filter_comma_flatten (P : Nat × Char → Prop) [DecidablePred P]
    (l : List (Nat × Char)) :
    ((l.map (fun ic => if P ic then [',', ic.2] else [ic.2])).flatten).filter
        (fun c => c != ',')
      = (l.map Prod.snd).filter (fun c => c != ',') := by
  induction l with
  | nil => rfl
  | cons ic rest ih =>
    simp only [List.map_cons, List.flatten_cons, List.filter_append, ih]
    by_cases h : P ic
    · rw [if_pos h]
      by_cases hc : ic.2 = ','
      · simp [List.filter_cons, hc]
      · simp [List.filter_cons, hc]
    · rw [if_neg h]
      by_cases hc : ic.2 = ','
      · simp [List.filter_cons, hc]
      · simp [List.filter_cons, hc]

theorem dropCommas_formatBigIntWithCommas (v : Int) :
    dropCommas (formatBigIntWithCommas v) = dropCommas (toString v) := by
  unfold formatBigIntWithCommas
  dsimp only
  split
  · rfl
  · unfold dropCommas
    have h := filter_comma_flatten
      (fun ic => 0 < ic.1 ∧ ((toString v).length - ic.1) % 3 = 0)
      (toString v).toList.enum
    simp only [List.enum_map_snd] at h
    exact congrArg String.mk h

/-- C8 counterexample: the TUI's export/copy action does not produce the
claimed schema; its objects carry the `ExportNode` keys — `hosts` (a
saturated numeric count) and `children` instead of `networkAddr`,
`maskBits`, `maxHosts` and `subnets`. -/
theorem C8_counterexample :
    jsonTopKeys (toExportNode (createSubnetNode [192, 168, 1, 0] 24))
      = ["cidr", "firstIP", "lastIP", "broadcastAddr", "subnetMask", "hosts"] ∧
    "networkAddr" ∉ jsonTopKeys (toExportNode (createSubnetNode [192, 168, 1, 0] 24)) ∧
    "maskBits" ∉ jsonTopKeys (toExportNode (createSubnetNode [192, 168, 1, 0] 24)) ∧
    "maxHosts" ∉ jsonTopKeys (toExportNode (createSubnetNode [192, 168, 1, 0] 24)) ∧
    "subnets" ∉ jsonTopKeys (toExportNode (createSubnetNode [192, 168, 1, 0] 24)) := by
  decide

/-- C8 (amended): the one-shot `--json` path renders every network node
with keys `cidr, firstIP, lastIP, networkAddr, broadcastAddr, subnetMask,
maskBits, maxHosts` plus `subnets` when non-empty, with `maxHosts` the
`">2^<bitlen-1>"` string at or beyond `2^64` and the comma-grouped decimal
(the plain decimal with grouping commas inserted) below `2^64`; the TUI
export/copy action instead renders `ExportNode` objects with keys `cidr,
firstIP, lastIP, broadcastAddr, subnetMask, hosts` plus `children` when
non-empty. -/
theorem C8_export_schemas :
    (∀ n : Network, jsonTopKeys (toJSONNetwork n)
      = ["cidr", "firstIP", "lastIP", "networkAddr", "broadcastAddr",
          "subnetMask", "maskBits", "maxHosts"]
        ++ (if n.subnets.isEmpty then [] else ["subnets"])) ∧
    (∀ sn : SNode, jsonTopKeys (toExportNode sn)
      = ["cidr", "firstIP", "lastIP", "broadcastAddr", "subnetMask", "hosts"]
        ++ (if sn.children.isEmpty then [] else ["children"])) ∧
    (∀ v : Int, (2 : Int) ^ 64 ≤ v →
      FormatMaxHosts v = ">2^" ++ toString (bigIntBitLen v - 1)) ∧
    (∀ v : Int, v < (2 : Int) ^ 64 →
      FormatMaxHosts v = formatBigIntWithCommas v ∧
      dropCommas (FormatMaxHosts v) = dropCommas (toString v)) := by
  refine ⟨?_, ?_, ?_, ?_⟩
  · intro n
    match n with
    | .mk a cb na ba fh lh sm mb mh subs =>
      unfold toJSONNetwork
      by_cases h : subs.isEmpty
      · simp only [Network.subnets, h, if_true, if_pos rfl]
        rfl
      · rw [if_neg h]
        simp only [Network.subnets]
        rw [if_neg h]
        rfl
  · intro sn
    match sn with
    | .mk net ch sp =>
      unfold toExportNode
      by_cases h : ch.isEmpty
      · simp only [SNode.children, h, if_pos rfl]
        rfl
      · rw [if_neg h]
        simp only [SNode.children]
        rw [if_neg h]
        rfl
  · intro v hv
    unfold FormatMaxHosts
    rw [if_pos hv]
  · intro v hv
    have hne : ¬ (2 : Int) ^ 64 ≤ v := by omega
    refine ⟨?_, ?_⟩
    · unfold FormatMaxHosts
      rw [if_neg hne]
    · unfold FormatMaxHosts
      rw [if_neg hne]
      exact dropCommas_formatBigIntWithCommas v
  
/-- C8 witness: the schemas and the host-count rendering evaluated on the
concrete `10.12.32.0/19` network and on host counts on both sides of the
`2^64` threshold. -/
theorem C8_export_schemas_witness :
    jsonTopKeys (toJSONNetwork (NewNetworkFromPrefix [10, 12, 34, 56] 19))
      = ["cidr", "firstIP", "lastIP", "networkAddr", "broadcastAddr",
          "subnetMask", "maskBits", "maxHosts"] ∧
    FormatMaxHosts (2 ^ 64) = ">2^64" ∧
    FormatMaxHosts 8190 = formatBigIntWithCommas 8190 := by
  refine ⟨?_, ?_, ?_⟩
  · rw [C8_export_schemas.1 (NewNetworkFromPrefix [10, 12, 34, 56] 19)]
    decide
  · rw [C8_export_schemas.2.2.1 (2 ^ 64) (by norm_num)]
    decide
  · exact (C8_export_schemas.2.2.2 8190 (by norm_num)).1

end SubnetCalc
namespace SubnetCalc

set_option maxRecDepth 100000 in
/-- C4 counterexample: splitting an IPv6 /0 to /128 fails the subnet-count
guard, but through the `IsInt64` overflow branch, whose message carries
neither the computed count (`2^128`) nor the `1,000,000` cap. -/
theorem C4_counterexample :
    ((NewNetworkFromPrefix (List.replicate 16 0) 0).split 128).2
      = some "requested split would generate too many subnets" ∧
    MaxGeneratedSubnets
      < (2 : Int) ^ ((128 : Int)
          - ((NewNetworkFromPrefix (List.replicate 16 0) 0).maskBits : Int)).toNat ∧
    strContainsSubstr "requested split would generate too many subnets"
      (toString ((2 : Int) ^ ((128 : Int)
          - ((NewNetworkFromPrefix (List.replicate 16 0) 0).maskBits : Int)).toNat))
      = false ∧
    strContainsSubstr "requested split would generate too many subnets" "1000000"
      = false := by
  decide

/-- C4 (amended): `Split(targetBits)` errors exactly when the target does
not exceed the current prefix, exceeds the address width, or the
arbitrary-precision subnet count `2^(targetBits-maskBits)` exceeds the
1,000,000 cap; on error the receiver (hence its `Subnets` field) is
unchanged; and whenever the count fits in a signed 64-bit integer the
too-many-subnets message carries the computed count and the cap (beyond
64 bits a generic message without the count is produced instead). -/
theorem C4_split_validation (n : Network) (t : Int) :
    (((n.split t).2 ≠ none) ↔
      (t ≤ (n.maskBits : Int) ∨ 8 * (n.cidrAddr.length : Int) < t ∨
        MaxGeneratedSubnets < (2 : Int) ^ (t - (n.maskBits : Int)).toNat)) ∧
    ((n.split t).2 ≠ none → (n.split t).1 = n) ∧
    ((n.maskBits : Int) < t → t ≤ 8 * (n.cidrAddr.length : Int) →
      (2 : Int) ^ (t - (n.maskBits : Int)).toNat ≤ 2 ^ 63 - 1 →
      MaxGeneratedSubnets < (2 : Int) ^ (t - (n.maskBits : Int)).toNat →
      (n.split t).2 = some ("requested split would generate "
        ++ toString ((2 : Int) ^ (t - (n.maskBits : Int)).toNat)
        ++ " subnets (limit " ++ toString MaxGeneratedSubnets ++ ")")) := by
  have hcap : (MaxGeneratedSubnets : Int) < 2 ^ 63 - 1 := by
    unfold MaxGeneratedSubnets; norm_num
  unfold Network.split
  dsimp only
  by_cases h1 : t ≤ (n.maskBits : Int)
  · rw [if_pos h1]
    exact ⟨⟨fun _ => Or.inl h1, fun _ => by simp⟩, fun _ => rfl,
      fun hlt _ _ _ => absurd h1 (by omega)⟩
  · rw [if_neg h1]
    by_cases h2 : t > 8 * (n.cidrAddr.length : Int)
    · rw [if_pos h2]
      exact ⟨⟨fun _ => Or.inr (Or.inl h2), fun _ => by simp⟩, fun _ => rfl,
        fun _ hle _ _ => absurd h2 (by omega)⟩
    · rw [if_neg h2]
      by_cases h3 : (2 : Int) ^ (t - (n.maskBits : Int)).toNat ≤ 2 ^ 63 - 1
      · rw [if_neg (not_not_intro h3)]
        by_cases h4 : (2 : Int) ^ (t - (n.maskBits : Int)).toNat > MaxGeneratedSubnets
        · rw [if_pos h4]
          exact ⟨⟨fun _ => Or.inr (Or.inr h4), fun _ => by simp⟩, fun _ => rfl,
            fun _ _ _ _ => rfl⟩
        · rw [if_neg h4]
          refine ⟨⟨fun h => absurd rfl h, fun h => ?_⟩, fun h => absurd rfl h,
            fun _ _ _ hgt => absurd hgt h4⟩
          rcases h with h | h | h
          · exact absurd h h1
          · exact absurd h (by omega)
          · exact absurd h (by omega)
      · rw [if_pos h3]
        exact ⟨⟨fun _ => Or.inr (Or.inr (by omega)), fun _ => by simp⟩, fun _ => rfl,
          fun _ _ h64 _ => absurd h64 h3⟩

set_option maxRecDepth 10000 in
/-- C4 witness: splitting `10.0.0.0/8` to /30 would make `2^22 = 4194304`
subnets; the failure message carries the count and the cap. -/
theorem C4_split_validation_witness :
    ((NewNetworkFromPrefix [10, 0, 0, 0] 8).split 30).2
      = some "requested split would generate 4194304 subnets (limit 1000000)" := by
  have h := (C4_split_validation (NewNetworkFromPrefix [10, 0, 0, 0] 8) 30).2.2
    (by decide) (by decide) (by decide) (by decide)
  rw [h]
  decide

end SubnetCalc
namespace SubnetCalc

theorem NNFP_networkAddr_le (a : Addr) (bits : Nat) (ha : bytesOK a)
    (hb : bits ≤ 8 * a.length) :
    addrVal (NewNetworkFromPrefix a bits).networkAddr
      ≤ 2 ^ (8 * a.length) - 2 ^ (8 * a.length - bits) := by
  rw [NNFP_networkAddr_val a bits ha hb]
  have hdvd : (2 : Nat) ^ (8 * a.length - bits) ∣ 2 ^ (8 * a.length) :=
    pow_dvd_pow 2 (by omega)
  have hlt : addrVal a < 2 ^ (8 * a.length) := by
    have := addrVal_lt ha
    rwa [two_pow_eight_mul] at this
  have hdivlt : addrVal a / 2 ^ (8 * a.length - bits)
      < 2 ^ (8 * a.length) / 2 ^ (8 * a.length - bits) :=
    Nat.div_lt_div_of_lt_of_dvd hdvd hlt
  have hmul : 2 ^ (8 * a.length) / 2 ^ (8 * a.length - bits) * 2 ^ (8 * a.length - bits)
      = 2 ^ (8 * a.length) := Nat.div_mul_cancel hdvd
  have hDpos : 0 < (2 : Nat) ^ (8 * a.length - bits) := Nat.pow_pos (by norm_num)
  calc addrVal a / 2 ^ (8 * a.length - bits) * 2 ^ (8 * a.length - bits)
      ≤ (2 ^ (8 * a.length) / 2 ^ (8 * a.length - bits) - 1) * 2 ^ (8 * a.length - bits) := by
        exact Nat.mul_le_mul_right _ (by omega)
    _ = 2 ^ (8 * a.length) - 2 ^ (8 * a.length - bits) := by
        rw [Nat.sub_mul, hmul, one_mul]

/-- C6: `NewNetworkFromPrefix` normalizes the address to the masked network
address and populates every derived field: numerically, `networkAddr` is the
input with its host bits cleared, `subnetMask` has exactly the first
`maskBits` bits set, `broadcastAddr` is `networkAddr` with all host bits
set, `firstHostIP` is `networkAddr + 1` and `lastHostIP` is
`broadcastAddr - 1` (whenever the prefix leaves host bits); concretely,
`10.12.34.56/19` normalizes to `10.12.32.0/19` with broadcast
`10.12.63.255`, first host `10.12.32.1`, last host `10.12.63.254`, mask
`255.255.224.0` and 8190 hosts. -/
theorem C6_newNetwork_fields :
    (∀ (a : Addr) (bits : Nat), bytesOK a → bits ≤ 8 * a.length →
      addrVal (NewNetworkFromPrefix a bits).networkAddr
          = addrVal a / 2 ^ (8 * a.length - bits) * 2 ^ (8 * a.length - bits) ∧
      (NewNetworkFromPrefix a bits).cidrAddr = (NewNetworkFromPrefix a bits).networkAddr ∧
      (NewNetworkFromPrefix a bits).maskBits = bits ∧
      addrVal (NewNetworkFromPrefix a bits).subnetMask
          = 2 ^ (8 * a.length) - 2 ^ (8 * a.length - bits) ∧
      addrVal (NewNetworkFromPrefix a bits).broadcastAddr
          = addrVal (NewNetworkFromPrefix a bits).networkAddr
            + (2 ^ (8 * a.length - bits) - 1) ∧
      (bits < 8 * a.length →
        addrVal (NewNetworkFromPrefix a bits).firstHostIP
            = addrVal (NewNetworkFromPrefix a bits).networkAddr + 1 ∧
        addrVal (NewNetworkFromPrefix a bits).lastHostIP
            = addrVal (NewNetworkFromPrefix a bits).broadcastAddr - 1)) ∧
    (NewNetworkFromPrefix [10, 12, 34, 56] 19).cidrAddr = [10, 12, 32, 0] ∧
    (NewNetworkFromPrefix [10, 12, 34, 56] 19).cidrBits = 19 ∧
    (NewNetworkFromPrefix [10, 12, 34, 56] 19).networkAddr = [10, 12, 32, 0] ∧
    (NewNetworkFromPrefix [10, 12, 34, 56] 19).broadcastAddr = [10, 12, 63, 255] ∧
    (NewNetworkFromPrefix [10, 12, 34, 56] 19).firstHostIP = [10, 12, 32, 1] ∧
    (NewNetworkFromPrefix [10, 12, 34, 56] 19).lastHostIP = [10, 12, 63, 254] ∧
    (NewNetworkFromPrefix [10, 12, 34, 56] 19).subnetMask = [255, 255, 224, 0] ∧
    (NewNetworkFromPrefix [10, 12, 34, 56] 19).maxHosts = 8190 := by
  refine ⟨?_, by decide, by decide, by decide, by decide, by decide, by decide,
    by decide, by decide⟩
  intro a bits ha hb
  have hW : (256 : Nat) ^ a.length = 2 ^ (8 * a.length) := two_pow_eight_mul _
  have hDpos : 0 < (2 : Nat) ^ (8 * a.length - bits) := Nat.pow_pos (by norm_num)
  have hWpos : 0 < (2 : Nat) ^ (8 * a.length) := Nat.pow_pos (by norm_num)
  have hnet := NNFP_networkAddr_val a bits ha hb
  have hbr := NNFP_broadcastAddr_val a bits ha hb
  have hle := NNFP_networkAddr_le a bits ha hb
  refine ⟨hnet, rfl, rfl, ?_, hbr, ?_⟩
  · rw [NNFP_subnetMask, CalculateSubnetMask_eq]
    exact addrVal_maskBytes a.length bits hb
  · intro hlt
    have hD2 : 2 ≤ (2 : Nat) ^ (8 * a.length - bits) := by
      calc (2 : Nat) = 2 ^ 1 := by norm_num
        _ ≤ 2 ^ (8 * a.length - bits) := Nat.pow_le_pow_right (by norm_num) (by omega)
    have hDW : (2 : Nat) ^ (8 * a.length - bits) ≤ 2 ^ (8 * a.length) :=
      Nat.pow_le_pow_right (by norm_num) (by omega)
    obtain ⟨N, hN⟩ : ∃ N, addrVal (NewNetworkFromPrefix a bits).networkAddr = N := ⟨_, rfl⟩
    obtain ⟨D, hD⟩ : ∃ D, (2 : Nat) ^ (8 * a.length - bits) = D := ⟨_, rfl⟩
    obtain ⟨W2, hW2⟩ : ∃ W2, (2 : Nat) ^ (8 * a.length) = W2 := ⟨_, rfl⟩
    rw [hN, hD] at hbr
    rw [hN, hD, hW2] at hle
    rw [hD] at hD2
    rw [hD, hW2] at hDW
    constructor
    · rw [NNFP_firstHostIP]
      unfold nextAddr
      rw [addrVal_AddToAddr, maskedAddr_length, hW, hW2, ← NNFP_networkAddr, hN]
      exact Nat.mod_eq_of_lt (by omega)
    · rw [NNFP_lastHostIP]
      rw [addrVal_prevAddr _ (NNFP_broadcastAddr_ok a bits ha),
        NNFP_broadcastAddr_length, hW, hW2, hbr]
      rw [show N + (D - 1) + (W2 - 1) = (N + (D - 1) - 1) + W2 by omega,
        Nat.add_mod_right]
      exact Nat.mod_eq_of_lt (by omega)

/-- C6 witness: the general field characterization applied to the concrete
`10.12.34.56/19` prefix. -/
theorem C6_newNetwork_fields_witness :
    addrVal (NewNetworkFromPrefix [10, 12, 34, 56] 19).networkAddr
      = addrVal [10, 12, 34, 56] / 2 ^ 13 * 2 ^ 13 :=
  (C6_newNetwork_fields.1 [10, 12, 34, 56] 19 (by decide) (by decide)).1

end SubnetCalc
namespace SubnetCalc

theorem generateSubnetsLoop_spec (t L : Nat) (ht : t ≤ 8 * L) :
    ∀ (count : Nat) (cur : Addr), cur.length = L → bytesOK cur →
      addrVal cur % 2 ^ (8 * L - t) = 0 →
      addrVal cur + count * 2 ^ (8 * L - t) ≤ 2 ^ (8 * L) →
      (generateSubnetsLoop t count cur).map (fun s => addrVal s.networkAddr)
        = (List.range count).map (fun i => addrVal cur + i * 2 ^ (8 * L - t)) ∧
      (generateSubnetsLoop t count cur).map (fun s => addrVal s.broadcastAddr)
        = (List.range count).map
            (fun i => addrVal cur + i * 2 ^ (8 * L - t) + (2 ^ (8 * L - t) - 1)) ∧
      ∀ s ∈ generateSubnetsLoop t count cur, s.maskBits = t := by
  intro count
  induction count with
  | zero =>
    intro cur _ _ _ _
    refine ⟨rfl, rfl, ?_⟩
    intro s hs
    simp [generateSubnetsLoop] at hs
  | succ count ih =>
    intro cur hl hok halign hbound
    rw [Nat.succ_mul] at hbound
    have ht' : t ≤ 8 * cur.length := by rw [hl]; exact ht
    have hDpos : 0 < (2 : Nat) ^ (8 * L - t) := Nat.pow_pos (by norm_num)
    have hnetval : addrVal (NewNetworkFromPrefix cur t).networkAddr = addrVal cur := by
      rw [NNFP_networkAddr_val cur t hok ht', hl]
      exact Nat.div_mul_cancel (Nat.dvd_of_mod_eq_zero halign)
    have hbrval : addrVal (NewNetworkFromPrefix cur t).broadcastAddr
        = addrVal cur + (2 ^ (8 * L - t) - 1) := by
      rw [NNFP_broadcastAddr_val cur t hok ht', hnetval, hl]
    have hbrlen : (NewNetworkFromPrefix cur t).broadcastAddr.length = L := by
      rw [NNFP_broadcastAddr_length, hl]
    have hbrok : bytesOK (NewNetworkFromPrefix cur t).broadcastAddr :=
      NNFP_broadcastAddr_ok cur t hok
    have hW : (256 : Nat) ^ L = 2 ^ (8 * L) := two_pow_eight_mul L
    have hcur' : addrVal (AddToAddr (NewNetworkFromPrefix cur t).broadcastAddr 1)
        = (addrVal cur + 2 ^ (8 * L - t)) % 2 ^ (8 * L) := by
      rw [addrVal_AddToAddr, hbrlen, hW, hbrval]
      congr 1
      omega
    have hlen' : (AddToAddr (NewNetworkFromPrefix cur t).broadcastAddr 1).length = L := by
      rw [AddToAddr_length, hbrlen]
    have hok' : bytesOK (AddToAddr (NewNetworkFromPrefix cur t).broadcastAddr 1) :=
      AddToAddr_ok _ _
    have halign' : addrVal (AddToAddr (NewNetworkFromPrefix cur t).broadcastAddr 1)
        % 2 ^ (8 * L - t) = 0 := by
      rw [hcur']
      rw [Nat.mod_mod_of_dvd _ (pow_dvd_pow 2 (by omega))]
      rw [Nat.add_mod_right]
      exact halign
    rcases Nat.eq_zero_or_pos count with hc0 | hcpos
    · subst hc0
      have hone : generateSubnetsLoop t 1 cur = [NewNetworkFromPrefix cur t] := rfl
      refine ⟨?_, ?_, ?_⟩
      · rw [hone, show List.range 1 = [0] from rfl]
        simp [hnetval]
      · rw [hone, show List.range 1 = [0] from rfl]
        simp [hbrval]
      · intro s hs
        rw [hone] at hs
        rcases List.mem_singleton.mp hs with h
        subst h
        exact NNFP_maskBits cur t
    · have hc1 : 1 * 2 ^ (8 * L - t) ≤ count * 2 ^ (8 * L - t) :=
        Nat.mul_le_mul_right _ hcpos
      rw [one_mul] at hc1
      have hcurid : addrVal (AddToAddr (NewNetworkFromPrefix cur t).broadcastAddr 1)
          = addrVal cur + 2 ^ (8 * L - t) := by
        rw [hcur']
        exact Nat.mod_eq_of_lt (by omega)
      have hbound' : addrVal (AddToAddr (NewNetworkFromPrefix cur t).broadcastAddr 1)
          + count * 2 ^ (8 * L - t) ≤ 2 ^ (8 * L) := by
        rw [hcurid]
        omega
      obtain ⟨ihn, ihb, ihm⟩ := ih _ hlen' hok' halign' hbound'
      refine ⟨?_, ?_, ?_⟩
      · rw [show generateSubnetsLoop t (count + 1) cur
          = NewNetworkFromPrefix cur t ::
            generateSubnetsLoop t count
              (AddToAddr (NewNetworkFromPrefix cur t).broadcastAddr 1) from rfl]
        rw [List.map_cons, ihn, hnetval, List.range_succ_eq_map, List.map_cons,
          List.map_map]
        congr 1
        · omega
        · apply List.map_congr_left
          intro i _
          simp only [Function.comp_apply, hcurid, Nat.succ_eq_add_one]
          ring
      · rw [show generateSubnetsLoop t (count + 1) cur
          = NewNetworkFromPrefix cur t ::
            generateSubnetsLoop t count
              (AddToAddr (NewNetworkFromPrefix cur t).broadcastAddr 1) from rfl]
        rw [List.map_cons, ihb, hbrval, List.range_succ_eq_map, List.map_cons,
          List.map_map]
        congr 1
        · omega
        · apply List.map_congr_left
          intro i _
          simp only [Function.comp_apply, hcurid, Nat.succ_eq_add_one]
          ring
      · intro s hs
        rw [show generateSubnetsLoop t (count + 1) cur
          = NewNetworkFromPrefix cur t ::
            generateSubnetsLoop t count
              (AddToAddr (NewNetworkFromPrefix cur t).broadcastAddr 1) from rfl] at hs
        rcases List.mem_cons.mp hs with h | h
        · subst h; exact NNFP_maskBits cur t
        · exact ihm s h

end SubnetCalc
namespace SubnetCalc

theorem withSubnets_subnets (n : Network) (s : List Network) :
    (n.withSubnets s).subnets = s := by
  cases n; rfl

/-- C1: for every valid `Split(targetBits)` on a constructed network with
`maskBits = b`, the resulting subnets list has length `2^(targetBits-b)`,
every subnet has `maskBits = targetBits`, the first subnet starts at the
parent's network address, and each next subnet's network address is the
previous subnet's broadcast address plus one. -/
theorem C1_split_count_law (a : Addr) (b : Nat) (t : Int)
    (ha : bytesOK a) (hb : b ≤ 8 * a.length)
    (hnone : ((NewNetworkFromPrefix a b).split t).2 = none) :
    (((NewNetworkFromPrefix a b).split t).1.subnets).length
        = 2 ^ (t - (b : Int)).toNat ∧
    (∀ s ∈ ((NewNetworkFromPrefix a b).split t).1.subnets, (s.maskBits : Int) = t) ∧
    ((((NewNetworkFromPrefix a b).split t).1.subnets).map
        (fun s => addrVal s.networkAddr)).head?
      = some (addrVal (NewNetworkFromPrefix a b).networkAddr) ∧
    ∀ i si si1, (((NewNetworkFromPrefix a b).split t).1.subnets)[i]? = some si →
      (((NewNetworkFromPrefix a b).split t).1.subnets)[i + 1]? = some si1 →
      addrVal si1.networkAddr = addrVal si.broadcastAddr + 1 := by
  have hmb : (NewNetworkFromPrefix a b).maskBits = b := NNFP_maskBits a b
  have h1 : ¬ t ≤ ((NewNetworkFromPrefix a b).maskBits : Int) := by
    intro hle
    unfold Network.split at hnone
    rw [if_pos hle] at hnone
    exact absurd hnone (by simp)
  have h2 : ¬ t > 8 * ((NewNetworkFromPrefix a b).cidrAddr.length : Int) := by
    intro hgt
    unfold Network.split at hnone
    rw [if_neg h1] at hnone
    dsimp only at hnone
    rw [if_pos hgt] at hnone
    exact absurd hnone (by simp)
  have h3 : (2 : Int) ^ (t - ((NewNetworkFromPrefix a b).maskBits : Int)).toNat
      ≤ 2 ^ 63 - 1 := by
    by_contra h3
    unfold Network.split at hnone
    rw [if_neg h1] at hnone
    dsimp only at hnone
    rw [if_neg (by exact fun h => h2 (by exact h))] at hnone
    rw [if_pos h3] at hnone
    exact absurd hnone (by simp)
  have h4 : ¬ (2 : Int) ^ (t - ((NewNetworkFromPrefix a b).maskBits : Int)).toNat
      > MaxGeneratedSubnets := by
    intro h4
    unfold Network.split at hnone
    rw [if_neg h1] at hnone
    dsimp only at hnone
    rw [if_neg (by exact fun h => h2 (by exact h))] at hnone
    rw [if_neg (not_not_intro h3), if_pos h4] at hnone
    exact absurd hnone (by simp)
  have heq : (NewNetworkFromPrefix a b).split t
      = ((NewNetworkFromPrefix a b).withSubnets
          (GenerateSubnets (NewNetworkFromPrefix a b).cidrAddr
            (NewNetworkFromPrefix a b).maskBits t.toNat), none) := by
    unfold Network.split
    rw [if_neg h1]
    dsimp only
    rw [if_neg (by exact fun h => h2 (by exact h))]
    rw [if_neg (not_not_intro h3), if_neg h4]
  rw [hmb] at h1 h3 h4
  have hlen : (NewNetworkFromPrefix a b).cidrAddr.length = a.length := by
    rw [NNFP_cidrAddr]; exact maskedAddr_length a b
  rw [hlen] at h2
  have htb : (b : Int) < t := by omega
  have htpos : 0 ≤ t := by omega
  have htn : t.toNat ≤ 8 * a.length := by omega
  have htnb : b ≤ t.toNat := by omega
  have hsubs : ((NewNetworkFromPrefix a b).split t).1.subnets
      = generateSubnetsLoop t.toNat (2 ^ (t.toNat - b))
          (NewNetworkFromPrefix a b).cidrAddr := by
    rw [heq]
    dsimp only
    rw [hmb, withSubnets_subnets]
    unfold GenerateSubnets
    rw [Nat.shiftLeft_eq, one_mul]
  have hculen : (NewNetworkFromPrefix a b).cidrAddr.length = a.length := hlen
  have hcuok : bytesOK (NewNetworkFromPrefix a b).cidrAddr := by
    rw [NNFP_cidrAddr]; exact maskedAddr_ok a b ha
  have halignb : addrVal (NewNetworkFromPrefix a b).cidrAddr
      % 2 ^ (8 * a.length - b) = 0 := by
    rw [NNFP_cidrAddr]; exact maskedAddr_align a b ha hb
  have haligned : addrVal (NewNetworkFromPrefix a b).cidrAddr
      % 2 ^ (8 * a.length - t.toNat) = 0 := by
    obtain ⟨k, hk⟩ := (pow_dvd_pow 2 (show 8 * a.length - t.toNat ≤ 8 * a.length - b
      by omega)).trans (Nat.dvd_of_mod_eq_zero halignb)
    rw [hk]
    exact Nat.mul_mod_right _ _
  have hboundv : addrVal (NewNetworkFromPrefix a b).cidrAddr
      + 2 ^ (t.toNat - b) * 2 ^ (8 * a.length - t.toNat) ≤ 2 ^ (8 * a.length) := by
    have hpow : (2 : Nat) ^ (t.toNat - b) * 2 ^ (8 * a.length - t.toNat)
        = 2 ^ (8 * a.length - b) := by
      rw [← pow_add]
      congr 1
      omega
    have hle' : addrVal (NewNetworkFromPrefix a b).cidrAddr
        ≤ 2 ^ (8 * a.length) - 2 ^ (8 * a.length - b) :=
      NNFP_networkAddr_le a b ha hb
    have h2W : (2 : Nat) ^ (8 * a.length - b) ≤ 2 ^ (8 * a.length) :=
      Nat.pow_le_pow_right (by norm_num) (by omega)
    rw [hpow]
    omega
  obtain ⟨hmapn, hmapb, hmask⟩ := generateSubnetsLoop_spec t.toNat a.length htn
    (2 ^ (t.toNat - b)) (NewNetworkFromPrefix a b).cidrAddr hculen hcuok haligned hboundv
  have hlistlen : (generateSubnetsLoop t.toNat (2 ^ (t.toNat - b))
      (NewNetworkFromPrefix a b).cidrAddr).length = 2 ^ (t.toNat - b) := by
    have h := congrArg List.length hmapn
    simpa using h
  have hDpos : 0 < (2 : Nat) ^ (8 * a.length - t.toNat) := Nat.pow_pos (by norm_num)
  refine ⟨?_, ?_, ?_, ?_⟩
  · rw [hsubs, hlistlen]
    congr 1
    omega
  · intro s hs
    rw [hsubs] at hs
    rw [hmask s hs, Int.toNat_of_nonneg htpos]
  · rw [hsubs, hmapn]
    obtain ⟨k, hk⟩ := Nat.exists_eq_succ_of_ne_zero
      (show 2 ^ (t.toNat - b) ≠ 0 from Nat.pos_iff_ne_zero.mp (Nat.pow_pos (by norm_num)))
    rw [hk, List.range_succ_eq_map, List.map_cons]
    simp only [Nat.zero_mul, Nat.add_zero, List.head?_cons, Option.some.injEq]
    rfl
  · intro i si si1 hsi hsi1
    rw [hsubs] at hsi hsi1
    have h5 : ((generateSubnetsLoop t.toNat (2 ^ (t.toNat - b))
        (NewNetworkFromPrefix a b).cidrAddr).map (fun s => addrVal s.networkAddr))[i + 1]?
        = some (addrVal si1.networkAddr) := by
      rw [List.getElem?_map, hsi1]
      rfl
    have h6 : ((generateSubnetsLoop t.toNat (2 ^ (t.toNat - b))
        (NewNetworkFromPrefix a b).cidrAddr).map (fun s => addrVal s.broadcastAddr))[i]?
        = some (addrVal si.broadcastAddr) := by
      rw [List.getElem?_map, hsi]
      rfl
    rw [hmapn, List.getElem?_map] at h5
    rw [hmapb, List.getElem?_map] at h6
    have hi1 : i + 1 < 2 ^ (t.toNat - b) := by
      by_contra hcon
      rw [List.getElem?_eq_none (by simpa using Nat.le_of_not_lt hcon)] at h5
      exact absurd h5 (by simp)
    have hi0 : i < 2 ^ (t.toNat - b) := by omega
    rw [List.getElem?_range hi1] at h5
    rw [List.getElem?_range hi0] at h6
    simp only [Option.map_some'] at h5 h6
    have e5 := Option.some.inj h5
    have e6 := Option.some.inj h6
    have hsm : (i + 1) * 2 ^ (8 * a.length - t.toNat)
        = i * 2 ^ (8 * a.length - t.toNat) + 2 ^ (8 * a.length - t.toNat) :=
      Nat.succ_mul i _
    omega

end SubnetCalc
namespace SubnetCalc

set_option maxRecDepth 10000 in
/-- C1 witness: `192.168.1.0/24` split to /26 yields `2^2 = 4` subnets. -/
theorem C1_split_count_law_witness :
    (((NewNetworkFromPrefix [192, 168, 1, 0] 24).split 26).1.subnets).length
      = 2 ^ ((26 : Int) - ((24 : Nat) : Int)).toNat :=
  (C1_split_count_law [192, 168, 1, 0] 24 26 (by decide) (by decide) (by decide)).1

end SubnetCalc
namespace SubnetCalc

set_option maxRecDepth 10000 in
/-- C3 counterexample: in a state with 2 rows, an unsplittable selected leaf
(a /30) and a non-empty undo history, the split key is a no-op and the undo
key then reverts the *earlier* mutation, leaving 1 row — not the 2 rows the
claim promises. -/
theorem C3_counterexample :
    (Model.rows exampleState).length = 2 ∧
    (Model.rows ((exampleState.handleKey .splitKey).handleKey .undoKey)).length = 1 ∧
    (Model.rows ((exampleState.handleKey .splitKey).handleKey .undoKey)).length
      ≠ (Model.rows exampleState).length := by
  decide

/-- C3 (amended): whenever the selected row is a splittable leaf (prefix
shorter than the /30 cap), the split key followed by the undo key restores
exactly the previous tree (hence the same row count and CIDR set) and
reports "Undone"; a following redo key restores the post-split tree and
reports "Redone"; and on an empty undo stack the undo key reports
"Nothing to undo" and changes nothing else. -/
theorem C3_undo_redo_round_trip :
    (∀ (m : Model) (p : List Nat) (node : SNode),
      (leafPaths m.root)[m.cursor]? = some p →
      getAt m.root p = some node →
      node.network.cidrBits < MaxSplitDepth →
      ((m.handleKey .splitKey).handleKey .undoKey).root = m.root ∧
      ((m.handleKey .splitKey).handleKey .undoKey).rows = m.rows ∧
      ((m.handleKey .splitKey).handleKey .undoKey).rows.length = m.rows.length ∧
      ((m.handleKey .splitKey).handleKey .undoKey).statusMsg = "Undone" ∧
      (((m.handleKey .splitKey).handleKey .undoKey).handleKey .redoKey).root
        = (m.handleKey .splitKey).root ∧
      (((m.handleKey .splitKey).handleKey .undoKey).handleKey .redoKey).statusMsg
        = "Redone") ∧
    (∀ m : Model, m.undoStack = [] →
      (m.handleKey .undoKey).statusMsg = "Nothing to undo" ∧
      (m.handleKey .undoKey).root = m.root) := by
  constructor
  · intro m p node hp hn hb
    have htake : (m.root :: m.undoStack).take maxHistorySize
        = m.root :: m.undoStack.take 49 := by
      rw [show maxHistorySize = 49 + 1 from rfl, List.take_succ_cons]
    refine ⟨?_, ?_, ?_, ?_, ?_, ?_⟩ <;>
      simp [Model.handleKey, Model.pushUndo, hp, hn, hb, Model.rows, htake]
  · intro m hm
    unfold Model.handleKey
    rw [hm]
    exact ⟨rfl, rfl⟩

set_option maxRecDepth 10000 in
/-- C3 witness: a fresh /24 model (one row, empty history): split then undo
returns to the single-row tree, and undo on the empty history reports
"Nothing to undo". -/
theorem C3_undo_redo_round_trip_witness :
    ((freshState.handleKey .splitKey).handleKey .undoKey).root = freshState.root ∧
    (freshState.handleKey .undoKey).statusMsg = "Nothing to undo" := by
  constructor
  · exact (C3_undo_redo_round_trip.1 freshState []
      (createSubnetNode [192, 168, 1, 0] 24) rfl rfl (by decide)).1
  · exact (C3_undo_redo_round_trip.2 freshState rfl).1

end SubnetCalc
namespace SubnetCalc

theorem collectLeaves_leaf (net : Network) (ch : List SNode) :
    collectLeaves (.mk net ch false) = [.mk net ch false] := by
  unfold collectLeaves
  rfl

theorem collectLeaves_node (net : Network) (l r : SNode) :
    collectLeaves (.mk net [l, r] true) = collectLeaves l ++ collectLeaves r := by
  rw [show collectLeaves (.mk net [l, r] true)
    = collectLeaves l ++ (collectLeaves r ++ []) from rfl, List.append_nil]

theorem collectLeaves_ne_nil (n : SNode) (h : TreeWF n) : collectLeaves n ≠ [] := by
  induction h with
  | leaf hnet => rw [collectLeaves_leaf]; simp
  | node hnet hlt hl hr twfl twfr ihl ihr =>
    rw [collectLeaves_node]
    intro hcon
    rcases List.append_eq_nil.mp hcon with ⟨h1, _⟩
    exact ihl h1

theorem netWF_facts (net : Network) (hwf : netWF net) :
    net.cidrAddr = net.networkAddr ∧
    bytesOK net.cidrAddr ∧
    (net.cidrAddr.length = 4 ∨ net.cidrAddr.length = 16) ∧
    net.cidrBits ≤ 8 * net.cidrAddr.length ∧
    addrVal net.cidrAddr % 2 ^ (8 * net.cidrAddr.length - net.cidrBits) = 0 ∧
    addrVal net.cidrAddr
      ≤ 2 ^ (8 * net.cidrAddr.length) - 2 ^ (8 * net.cidrAddr.length - net.cidrBits) ∧
    addrVal net.broadcastAddr
      = addrVal net.networkAddr + (2 ^ (8 * net.cidrAddr.length - net.cidrBits) - 1) := by
  obtain ⟨a, bits, ha, hl4, hb, rfl⟩ := hwf
  have hcl : (NewNetworkFromPrefix a bits).cidrAddr.length = a.length := by
    rw [NNFP_cidrAddr]; exact maskedAddr_length a bits
  have hcb : (NewNetworkFromPrefix a bits).cidrBits = bits := rfl
  refine ⟨rfl, ?_, ?_, ?_, ?_, ?_, ?_⟩
  · rw [NNFP_cidrAddr]; exact maskedAddr_ok a bits ha
  · rw [hcl]; exact hl4
  · rw [hcl, hcb]; exact hb
  · rw [hcl, hcb, NNFP_cidrAddr]; exact maskedAddr_align a bits ha hb
  · rw [hcl, hcb]; exact NNFP_networkAddr_le a bits ha hb
  · rw [hcl, hcb]
    have h := NNFP_broadcastAddr_val a bits ha hb
    exact h

end SubnetCalc
namespace SubnetCalc

theorem split_children_spec (net : Network) (hwf : netWF net)
    (hlt : net.cidrBits < 8 * net.cidrAddr.length) :
    netWF (splitChild1 net) ∧ netWF (splitChild2 net) ∧
    addrVal (splitChild1 net).networkAddr = addrVal net.networkAddr ∧
    addrVal (splitChild2 net).networkAddr
      = addrVal (splitChild1 net).broadcastAddr + 1 ∧
    addrVal (splitChild2 net).broadcastAddr = addrVal net.broadcastAddr := by
  obtain ⟨hcn, hok, hl4, hb, halign, hle, hbr⟩ := netWF_facts net hwf
  have hal_len : (maskedAddr net.cidrAddr net.cidrBits).length = net.cidrAddr.length :=
    maskedAddr_length _ _
  have hal_ok : bytesOK (maskedAddr net.cidrAddr net.cidrBits) := maskedAddr_ok _ _ hok
  have hal_val : addrVal (maskedAddr net.cidrAddr net.cidrBits) = addrVal net.cidrAddr := by
    rw [maskedAddr_val _ _ hok hb]
    exact Nat.div_mul_cancel (Nat.dvd_of_mod_eq_zero halign)
  have hD1dvdD0 : (2 : Nat) ^ (8 * net.cidrAddr.length - (net.cidrBits + 1))
      ∣ 2 ^ (8 * net.cidrAddr.length - net.cidrBits) :=
    pow_dvd_pow 2 (by omega)
  have halignD1 : addrVal net.cidrAddr
      % 2 ^ (8 * net.cidrAddr.length - (net.cidrBits + 1)) = 0 := by
    obtain ⟨k, hk⟩ := hD1dvdD0.trans (Nat.dvd_of_mod_eq_zero halign)
    rw [hk]
    exact Nat.mul_mod_right _ _
  have hb1 : net.cidrBits + 1 ≤ 8 * (maskedAddr net.cidrAddr net.cidrBits).length := by
    rw [hal_len]; omega
  have hD0eq : (2 : Nat) ^ (8 * net.cidrAddr.length - net.cidrBits)
      = 2 ^ (8 * net.cidrAddr.length - (net.cidrBits + 1)) * 2 := by
    rw [← pow_succ]
    congr 1
    omega
  have hD1pos : 0 < (2 : Nat) ^ (8 * net.cidrAddr.length - (net.cidrBits + 1)) :=
    Nat.pow_pos (by norm_num)
  have hWbig : (2 : Nat) ^ (8 * net.cidrAddr.length - net.cidrBits)
      ≤ 2 ^ (8 * net.cidrAddr.length) :=
    Nat.pow_le_pow_right (by norm_num) (by omega)
  -- child 1
  have h1n : addrVal (splitChild1 net).networkAddr = addrVal net.cidrAddr := by
    unfold splitChild1
    rw [NNFP_networkAddr_val _ _ hal_ok hb1, hal_len, hal_val]
    exact Nat.div_mul_cancel (Nat.dvd_of_mod_eq_zero halignD1)
  have h1b : addrVal (splitChild1 net).broadcastAddr
      = addrVal net.cidrAddr
        + (2 ^ (8 * net.cidrAddr.length - (net.cidrBits + 1)) - 1) := by
    unfold splitChild1
    rw [NNFP_broadcastAddr_val _ _ hal_ok hb1, hal_len]
    unfold splitChild1 at h1n
    rw [h1n]
  have h1blen : (splitChild1 net).broadcastAddr.length = net.cidrAddr.length := by
    unfold splitChild1
    rw [NNFP_broadcastAddr_length, hal_len]
  have h1bok : bytesOK (splitChild1 net).broadcastAddr := by
    unfold splitChild1
    exact NNFP_broadcastAddr_ok _ _ hal_ok
  -- the address one past child 1's broadcast
  have har_len : (nextAddr (splitChild1 net).broadcastAddr).length
      = net.cidrAddr.length := by
    unfold nextAddr
    rw [AddToAddr_length, h1blen]
  have har_ok : bytesOK (nextAddr (splitChild1 net).broadcastAddr) := AddToAddr_ok _ _
  have har_val : addrVal (nextAddr (splitChild1 net).broadcastAddr)
      = addrVal net.cidrAddr
        + 2 ^ (8 * net.cidrAddr.length - (net.cidrBits + 1)) := by
    unfold nextAddr
    rw [addrVal_AddToAddr, h1blen, two_pow_eight_mul, h1b]
    rw [show addrVal net.cidrAddr
        + (2 ^ (8 * net.cidrAddr.length - (net.cidrBits + 1)) - 1) + 1
      = addrVal net.cidrAddr
        + 2 ^ (8 * net.cidrAddr.length - (net.cidrBits + 1)) by omega]
    exact Nat.mod_eq_of_lt (by omega)
  have har_alignD1 : addrVal (nextAddr (splitChild1 net).broadcastAddr)
      % 2 ^ (8 * net.cidrAddr.length - (net.cidrBits + 1)) = 0 := by
    rw [har_val, Nat.add_mod_right]
    exact halignD1
  have hb2 : net.cidrBits + 1 ≤ 8 * (nextAddr (splitChild1 net).broadcastAddr).length := by
    rw [har_len]; omega
  have h2n : addrVal (splitChild2 net).networkAddr
      = addrVal net.cidrAddr
        + 2 ^ (8 * net.cidrAddr.length - (net.cidrBits + 1)) := by
    unfold splitChild2
    rw [NNFP_networkAddr_val _ _ har_ok hb2, har_len,
      Nat.div_mul_cancel (Nat.dvd_of_mod_eq_zero har_alignD1), har_val]
  have h2b : addrVal (splitChild2 net).broadcastAddr
      = addrVal net.cidrAddr
        + (2 ^ (8 * net.cidrAddr.length - net.cidrBits) - 1) := by
    unfold splitChild2
    rw [NNFP_broadcastAddr_val _ _ har_ok hb2, har_len]
    unfold splitChild2 at h2n
    rw [h2n, hD0eq]
    have := hD1pos
    omega
  refine ⟨?_, ?_, ?_, ?_, ?_⟩
  · exact ⟨maskedAddr net.cidrAddr net.cidrBits, net.cidrBits + 1, hal_ok,
      by rw [hal_len]; exact hl4, hb1, rfl⟩
  · exact ⟨nextAddr (splitChild1 net).broadcastAddr, net.cidrBits + 1, har_ok,
      by rw [har_len]; exact hl4, hb2, rfl⟩
  · rw [h1n, hcn]
  · rw [h2n, h1b]
    omega
  · rw [h2b, hbr, hcn]

end SubnetCalc
namespace SubnetCalc

theorem leafRangesOf_leaf (net : Network) :
    leafRangesOf (.mk net [] false)
      = [(addrVal net.networkAddr, addrVal net.broadcastAddr)] := by
  unfold leafRangesOf
  rw [collectLeaves_leaf]
  rfl

theorem leafRangesOf_node (net : Network) (l r : SNode) :
    leafRangesOf (.mk net [l, r] true) = leafRangesOf l ++ leafRangesOf r := by
  unfold leafRangesOf
  rw [collectLeaves_node, List.map_append]

theorem TreeWF_partition (n : SNode) (h : TreeWF n) :
    IsPartitionOf (leafRangesOf n)
      (addrVal n.network.networkAddr) (addrVal n.network.broadcastAddr) := by
  induction h with
  | @leaf net hnet =>
    obtain ⟨_, _, _, _, _, _, hbr⟩ := netWF_facts net hnet
    refine ⟨by simp [leafRangesOf_leaf], ?_, ?_, ?_, ?_⟩
    · intro p hp
      rw [leafRangesOf_leaf] at hp
      rcases List.mem_singleton.mp hp with rfl
      simp only [SNode.network]
      omega
    · rw [leafRangesOf_leaf]
      exact List.chain'_singleton _
    · rw [leafRangesOf_leaf]
      rfl
    · rw [leafRangesOf_leaf]
      rfl
  | @node net l r hnet hlt hl hr twfl twfr ihl ihr =>
    obtain ⟨wf1, wf2, f1, f2, f3⟩ := split_children_spec net hnet hlt
    obtain ⟨hne_l, hint_l, hch_l, hhd_l, hlast_l⟩ := ihl
    obtain ⟨hne_r, hint_r, hch_r, hhd_r, hlast_r⟩ := ihr
    rw [hl] at hhd_l hlast_l
    rw [hr] at hhd_r hlast_r
    refine ⟨?_, ?_, ?_, ?_, ?_⟩
    · rw [leafRangesOf_node]
      intro hcon
      exact hne_l (List.append_eq_nil.mp hcon).1
    · intro p hp
      rw [leafRangesOf_node] at hp
      rcases List.mem_append.mp hp with h1 | h1
      · exact hint_l p h1
      · exact hint_r p h1
    · rw [leafRangesOf_node]
      refine List.chain'_append.mpr ⟨hch_l, hch_r, ?_⟩
      intro x hx y hy
      have hx2 : x.2 = addrVal (splitChild1 net).broadcastAddr := by
        rcases Option.mem_def.mp hx with hxeq
        have := congrArg (Option.map Prod.snd) hxeq
        rw [hlast_l] at this
        exact (Option.some.inj this.symm)
      have hy1 : y.1 = addrVal (splitChild2 net).networkAddr := by
        rcases Option.mem_def.mp hy with hyeq
        have := congrArg (Option.map Prod.fst) hyeq
        rw [hhd_r] at this
        exact (Option.some.inj this.symm)
      rw [hx2, hy1, f2]
    · rw [leafRangesOf_node, List.head?_append]
      obtain ⟨p0, hp0, hp0f⟩ := Option.map_eq_some'.mp hhd_l
      rw [hp0]
      rw [show (some p0).or (leafRangesOf r).head? = some p0 from rfl,
        Option.map_some', hp0f, f1]
      rfl
    · rw [leafRangesOf_node, List.getLast?_append]
      obtain ⟨p1, hp1, hp1s⟩ := Option.map_eq_some'.mp hlast_r
      rw [hp1]
      rw [show (some p1).or (leafRangesOf l).getLast? = some p1 from rfl,
        Option.map_some', hp1s, f3]
      rfl

end SubnetCalc
namespace SubnetCalc

theorem split1_network_eq (n : SNode) : (n.split1).1.network = n.network := by
  unfold SNode.split1
  split
  · rfl
  · rfl

theorem join1_network_eq (n : SNode) : (n.join1).1.network = n.network := by
  unfold SNode.join1
  split
  · rfl
  · rfl

theorem split1_TreeWF (n : SNode) (h : TreeWF n) : TreeWF (n.split1).1 := by
  cases h with
  | @leaf net hnet =>
    unfold SNode.split1
    by_cases hd : MaxSplitDepth ≤ (SNode.mk net [] false).network.cidrBits
    · rw [if_pos (by simp [SNode.isSplit, hd])]
      exact TreeWF.leaf hnet
    · rw [if_neg (by simp [SNode.isSplit, hd])]
      simp only [SNode.network, SNode.children, List.nil_append]
      have hlt : net.cidrBits < 8 * net.cidrAddr.length := by
        obtain ⟨_, _, hl4, _, _, _, _⟩ := netWF_facts net hnet
        simp only [SNode.network] at hd
        unfold MaxSplitDepth at hd
        omega
      obtain ⟨wf1, wf2, _, _, _⟩ := split_children_spec net hnet hlt
      exact TreeWF.node hnet hlt rfl rfl (TreeWF.leaf wf1) (TreeWF.leaf wf2)
  | @node net l r hnet hlt hl hr twfl twfr =>
    unfold SNode.split1
    rw [if_pos (by simp [SNode.isSplit])]
    exact TreeWF.node hnet hlt hl hr twfl twfr

theorem join1_TreeWF (n : SNode) (h : TreeWF n) : TreeWF (n.join1).1 := by
  cases h with
  | @leaf net hnet =>
    unfold SNode.join1
    rw [if_pos (by simp [SNode.isSplit])]
    exact TreeWF.leaf hnet
  | @node net l r hnet hlt hl hr twfl twfr =>
    unfold SNode.join1
    rw [if_neg (by simp [SNode.isSplit])]
    exact TreeWF.leaf hnet

theorem modifyAt_TreeWF (f : SNode → SNode)
    (hf : ∀ x, TreeWF x → TreeWF (f x) ∧ (f x).network = x.network) :
    ∀ (p : List Nat) (n : SNode), TreeWF n →
      TreeWF (modifyAt n p f) ∧ (modifyAt n p f).network = n.network := by
  intro p
  induction p with
  | nil =>
    intro n h
    simp only [modifyAt]
    exact hf n h
  | cons i rest ih =>
    intro n h
    cases h with
    | @leaf net hnet =>
      simp only [modifyAt, modifyAtChildren]
      exact ⟨TreeWF.leaf hnet, trivial⟩
    | @node net l r hnet hlt hl hr twfl twfr =>
      match i with
      | 0 =>
        simp only [modifyAt, modifyAtChildren]
        obtain ⟨t1, e1⟩ := ih l twfl
        exact ⟨TreeWF.node hnet hlt (by rw [e1, hl]) hr t1 twfr, rfl⟩
      | 1 =>
        simp only [modifyAt, modifyAtChildren]
        obtain ⟨t2, e2⟩ := ih r twfr
        exact ⟨TreeWF.node hnet hlt hl (by rw [e2, hr]) twfl t2, rfl⟩
      | (k + 2) =>
        simp only [modifyAt, modifyAtChildren]
        exact ⟨TreeWF.node hnet hlt hl hr twfl twfr, trivial⟩

theorem applyTreeOp_TreeWF (root : SNode) (op : TreeOp) (h : TreeWF root) :
    TreeWF (applyTreeOp root op) ∧ (applyTreeOp root op).network = root.network := by
  cases op with
  | splitOp p =>
    exact modifyAt_TreeWF _ (fun x hx => ⟨split1_TreeWF x hx, split1_network_eq x⟩) p root h
  | joinOp p =>
    exact modifyAt_TreeWF _ (fun x hx => ⟨join1_TreeWF x hx, join1_network_eq x⟩) p root h

theorem applyTreeOps_TreeWF (ops : List TreeOp) :
    ∀ root : SNode, TreeWF root →
      TreeWF (applyTreeOps root ops) ∧ (applyTreeOps root ops).network = root.network := by
  induction ops with
  | nil => intro root h; exact ⟨h, rfl⟩
  | cons op rest ih =>
    intro root h
    simp only [applyTreeOps, List.foldl_cons]
    rw [show List.foldl applyTreeOp (applyTreeOp root op) rest
      = applyTreeOps (applyTreeOp root op) rest from rfl]
    obtain ⟨h1, e1⟩ := applyTreeOp_TreeWF root op h
    obtain ⟨h2, e2⟩ := ih _ h1
    exact ⟨h2, by rw [e2, e1]⟩

/-- C2: for every tree obtained from a single root node by any finite
sequence of `Split()`/`Join()` calls (addressed at arbitrary nodes), the
leaves collected left-to-right carry address ranges that are contiguous in
ascending order, pairwise non-overlapping, and whose union is exactly the
root's address range; the root's own network never changes. -/
theorem C2_partition_invariant (ops : List TreeOp) (a : Addr) (bits : Nat)
    (ha : bytesOK a) (hlen : a.length = 4 ∨ a.length = 16)
    (hb : bits ≤ 8 * a.length) :
    IsPartitionOf (leafRangesOf (applyTreeOps (createSubnetNode a bits) ops))
      (addrVal (createSubnetNode a bits).network.networkAddr)
      (addrVal (createSubnetNode a bits).network.broadcastAddr) ∧
    (applyTreeOps (createSubnetNode a bits) ops).network
      = (createSubnetNode a bits).network := by
  have hwf0 : TreeWF (createSubnetNode a bits) :=
    TreeWF.leaf ⟨a, bits, ha, hlen, hb, rfl⟩
  obtain ⟨hwf, hne⟩ := applyTreeOps_TreeWF ops (createSubnetNode a bits) hwf0
  have hpart := TreeWF_partition _ hwf
  rw [hne] at hpart
  exact ⟨hpart, hne⟩

/-- C2 witness: `10.0.0.0/24` with the root split and its lower half split
again: the three leaves partition the root's range. -/
theorem C2_partition_invariant_witness :
    IsPartitionOf
      (leafRangesOf (applyTreeOps (createSubnetNode [10, 0, 0, 0] 24)
        [TreeOp.splitOp [], TreeOp.splitOp [0]]))
      (addrVal (createSubnetNode [10, 0, 0, 0] 24).network.networkAddr)
      (addrVal (createSubnetNode [10, 0, 0, 0] 24).network.broadcastAddr) :=
  (C2_partition_invariant [TreeOp.splitOp [], TreeOp.splitOp [0]] [10, 0, 0, 0] 24
    (by decide) (Or.inl rfl) (by decide)).1

end SubnetCalc
